import Mathlib

/-
Verification of the tool_extractor core of this repository: a shallow
embedding of src/tool_extractor/extractor.py (together with models.py and
the sorting step of cli.py), followed by theorems about its behaviour.

Embedding conventions:
- Python dicts are association lists in insertion order; updating an
  existing key keeps its position and replaces the value (Python 3.7+
  dict semantics).  Python sets are lists used only through membership,
  emptiness and union (modelled as append), which matches every use in
  the source.
- A parsed file is modelled by the syntactic data the extractor consumes:
  top-level statements restricted to the node kinds the source inspects
  (function definitions, assignments feeding the literal __all__ scan,
  from-imports, plain imports, anything else).  Annotation text is stored
  already extracted (the source obtains it by slicing the original text
  or un-parsing; only the resulting text reaches the renderer).  A file
  that fails to read or parse is modelled by parse = none, mirroring
  _read_and_parse returning (None, None).
- Python string operations that Lean's String API does not reduce in the
  kernel are implemented on the underlying character lists with the same
  semantics (split, startswith/endswith, single-character replace, strip).
-/

namespace ToolExtractor

/-- Python `a or b` for an optional string: `some s` is truthy iff `s` is
nonempty, otherwise the fallback is used. -/
def pyOr (a : Option String) (b : String) : String :=
  match a with
  | some s => if s = "" then b else s
  | none => b

/-- Lookup in an insertion-ordered association list (Python dict read). -/
def dictLookup {α : Type} (d : List (String × α)) (k : String) : Option α :=
  match d with
  | [] => none
  | (k', v) :: rest => if k' = k then some v else dictLookup rest k

/-- Write to an insertion-ordered association list (Python dict write): an
existing key keeps its position and gets the new value, a new key is
appended at the end. -/
def dictInsert {α : Type} (d : List (String × α)) (k : String) (v : α) :
    List (String × α) :=
  match d with
  | [] => [(k, v)]
  | (k', v') :: rest =>
    if k' = k then (k, v) :: rest else (k', v') :: dictInsert rest k v

/-- Keys of a modelled dict, in insertion order (Python dict.keys()). -/
def dictKeys {α : Type} (d : List (String × α)) : List String :=
  d.map (fun p => p.1)

/-- Two-level read: `d[k1][k2]` where a missing outer key acts as an empty
inner dict (read counterpart of the defaultdict-of-dict pattern). -/
def dictLookup2 {α : Type} (d : List (String × List (String × α)))
    (k1 k2 : String) : Option α :=
  dictLookup ((dictLookup d k1).getD []) k2

/-- Two-level write `d[k1][k2] = v` on a defaultdict-of-dict. -/
def nestedInsert {α : Type} (d : List (String × List (String × α)))
    (k1 k2 : String) (v : α) : List (String × List (String × α)) :=
  dictInsert d k1 (dictInsert ((dictLookup d k1).getD []) k2 v)

/-- Characters of a string split on '.', Python str.split(".") semantics
(an empty string yields one empty piece). -/
def splitDots : List Char → List (List Char)
  | [] => [[]]
  | c :: rest =>
    let r := splitDots rest
    if c = '.' then [] :: r
    else
      match r with
      | [] => [[c]]
      | h :: t => (c :: h) :: t

/-- Characters after the last '.', the whole list if no '.' occurs:
Python full.split(".")[-1]. -/
def lastSegChars (cs : List Char) : List Char :=
  (cs.reverse.takeWhile (fun c => c != '.')).reverse

/-- Characters before the last '.', the whole list if no '.' occurs:
Python full.rsplit(".", 1)[0]. -/
def dropLastSegChars (cs : List Char) : List Char :=
  if cs.contains '.' then ((cs.reverse.dropWhile (fun c => c != '.')).drop 1).reverse
  else cs

/-- Characters before the first '.': Python pkg.split(".")[0]. -/
def topSegChars (cs : List Char) : List Char :=
  cs.takeWhile (fun c => c != '.')

/-- The last '.'-separated segment of a string. -/
def lastSeg (s : String) : String := String.mk (lastSegChars s.data)

/-- Python s.startswith(p), on the character lists. -/
def chStartsWith (s p : String) : Bool := List.isPrefixOf p.data s.data

/-- Python s.endswith(p), on the character lists. -/
def chEndsWith (s p : String) : Bool := List.isSuffixOf p.data s.data

/-- One output record (models.ToolRecord); to_dict is a field-preserving
relabelling, so records are kept as structures throughout. -/
structure ToolRecord where
  id : String
  module : String
  name : String
  signature : String
  doc_first_line : String
  file : String
  lineno : Nat
deriving DecidableEq, Repr

/-- One formal parameter: its name and its annotation text, the latter
already extracted from the source (None when absent, mirroring
_get_annotation_text's result). -/
structure PyArg where
  arg : String
  ann : Option String
deriving DecidableEq, Repr

/-- The ast.arguments layout consumed by _render_signature.  Only the
length of `defaults` is read by the source (len(args.defaults)), so the
default expressions are units; `kw_defaults` keeps the per-slot
present/absent information the source reads via `is not None`. -/
structure PyArguments where
  posonlyargs : List PyArg
  args : List PyArg
  vararg : Option PyArg
  kwonlyargs : List PyArg
  kw_defaults : List (Option Unit)
  kwarg : Option PyArg
  defaults : List Unit
deriving DecidableEq, Repr

/-- A top-level (async) function definition as consumed by the extractor:
name, parameter structure, return-annotation text, async flag, cleaned
docstring (None when absent, mirroring ast.get_docstring) and line. -/
structure PyFunctionDef where
  name : String
  args : PyArguments
  returns : Option String
  isAsync : Bool
  doc : Option String
  lineno : Nat
deriving DecidableEq, Repr

/-- An assignment target as far as the literal __all__ scan looks at it. -/
inductive AllTarget where
  | nameTgt (id : String)
  | otherTgt
deriving DecidableEq, Repr

/-- An element of a literal list/tuple/set, as far as
_collect_string_constants looks at it. -/
inductive LitElt where
  | strElt (s : String)
  | otherElt
deriving DecidableEq, Repr

/-- The right-hand side of an assignment: a literal container or anything
else (ignored by the __all__ scan). -/
inductive AssignVal where
  | containerVal (elts : List LitElt)
  | otherVal
deriving DecidableEq, Repr

/-- One `name as asname` item of an import statement (ast.alias). -/
structure ImportAlias where
  name : String
  asname : Option String
deriving DecidableEq, Repr

/-- A top-level statement, restricted to the node kinds the extractor
dispatches on. -/
inductive Stmt where
  | funcDef (fn : PyFunctionDef)
  | assign (targets : List AllTarget) (value : AssignVal)
  | importFrom (module : Option String) (level : Nat) (names : List ImportAlias)
  | importPlain (names : List ImportAlias)
  | otherStmt
deriving DecidableEq, Repr

/-- A discovered file: its path components relative to the scanned root,
and its parse outcome (none models a read/decode/syntax failure). -/
structure PyFile where
  path : List String
  parse : Option (List Stmt)
deriving DecidableEq, Repr

/-- _collect_string_constants: string constants of a literal container. -/
def collectStringConstants (v : AssignVal) : List String :=
  match v with
  | .containerVal elts =>
    elts.foldl (fun acc e =>
      match e with
      | .strElt s => acc ++ [s]
      | .otherElt => acc) []
  | .otherVal => []

/-- _extract_literal_all: union of the string constants assigned to the
name __all__ by top-level assignments. -/
def extractLiteralAll (body : List Stmt) : List String :=
  body.foldl (fun names stmt =>
    match stmt with
    | .assign targets value =>
      targets.foldl (fun names t =>
        match t with
        | .nameTgt id => if id = "__all__" then names ++ collectStringConstants value else names
        | .otherTgt => names) names
    | _ => names) []

/-- _is_public: no leading underscore, unless listed in __all__. -/
def isPublic (name : String) (literalAll : List String) : Bool :=
  !(chStartsWith name "_") || literalAll.contains name

/-- _format_param: render one parameter, with an ellipsis placeholder for
a present default. -/
def formatParam (name : String) (ann : Option String) (dflt : Bool) : String :=
  let base :=
    match ann with
    | some a => if a ≠ "" then name ++ ": " ++ a else name
    | none => name
  if dflt then base ++ "=..." else base

/-- _render_signature: reconstruct the textual signature from the
parameter structure, aligning the trailing defaults list against the
combined positional-only + positional-or-keyword parameters. -/
def renderSignature (fn : PyFunctionDef) : String :=
  let args := fn.args
  let numPositional := args.posonlyargs.length + args.args.length
  let numPositionalDefaults := args.defaults.length
  let firstDefaultIndex :=
    if numPositionalDefaults ≠ 0 then numPositional - numPositionalDefaults
    else numPositional
  let parts : List String :=
    args.posonlyargs.enum.map (fun p =>
      formatParam p.2.arg p.2.ann (decide (p.1 ≥ firstDefaultIndex)))
  let parts := if args.posonlyargs ≠ [] then parts ++ ["/"] else parts
  let parts := parts ++ args.args.enum.map (fun p =>
    formatParam p.2.arg p.2.ann
      (decide (args.posonlyargs.length + p.1 ≥ firstDefaultIndex)))
  let parts :=
    match args.vararg with
    | some v => parts ++ [formatParam ("*" ++ v.arg) v.ann false]
    | none => parts
  let parts :=
    if args.kwonlyargs ≠ [] ∧ args.vararg = none then parts ++ ["*"] else parts
  let parts := parts ++ args.kwonlyargs.enum.map (fun p =>
    formatParam p.2.arg p.2.ann ((args.kw_defaults.getD p.1 none).isSome))
  let parts :=
    match args.kwarg with
    | some v => parts ++ [formatParam ("**" ++ v.arg) v.ann false]
    | none => parts
  let paramsRendered := String.intercalate ", " parts
  let kind := if fn.isAsync then "async def" else "def"
  match fn.returns with
  | some r =>
    if r ≠ "" then kind ++ " " ++ fn.name ++ "(" ++ paramsRendered ++ ") -> " ++ r
    else kind ++ " " ++ fn.name ++ "(" ++ paramsRendered ++ ")"
  | none => kind ++ " " ++ fn.name ++ "(" ++ paramsRendered ++ ")"

/-- First line of the cleaned docstring: strip, then the text before the
first line break (empty when the docstring is absent or blank), mirroring
the strip()/splitlines() chain at the record-construction site. -/
def docFirstLine (doc : Option String) : String :=
  let s := doc.getD ""
  let t := ((s.data.dropWhile Char.isWhitespace).reverse.dropWhile Char.isWhitespace).reverse
  String.mk (t.takeWhile (fun c => c != '\n'))

/-- _normalize_module_name: strip a leading src-layout segment. -/
def normalizeModuleName (mod : String) : String :=
  if chStartsWith mod "src." then String.mk (mod.data.drop 4) else mod

/-- _module_name_for: join the relative path, strip the .py suffix, turn
separators into dots, collapse a trailing package-init segment and
normalize the layout prefix. -/
def moduleNameFor (path : List String) : String :=
  let rel := String.intercalate "/" path
  let mod := String.mk
    ((rel.data.take (rel.data.length - 3)).map (fun c => if c = '/' then '.' else c))
  let mod :=
    if chEndsWith mod ".__init__" then String.mk (mod.data.take (mod.data.length - 9))
    else mod
  normalizeModuleName mod

/-- Python list slicing l[:k] including the negative-index case:
a negative k keeps max(0, len + k) leading elements. -/
def pyTake (l : List String) (k : Int) : List String :=
  if k < 0 then l.take (l.length - (-k).toNat) else l.take k.toNat

/-- The climbed package prefix computed inside _resolve_relative_module:
split the current module on dots, keep the slice parts[:len-level+1] and
join the nonempty kept segments. -/
def climbPrefix (currentModule : String) (level : Nat) : String :=
  let parts := (splitDots currentModule.data).map (fun cs => String.mk cs)
  String.intercalate "."
    ((pyTake parts ((parts.length : Int) - (level : Int) + 1)).filter (fun p => p != ""))

/-- _resolve_relative_module: resolve a relative import target against the
current module's dotted path. -/
def resolveRelativeModule (currentModule : String) (module : Option String)
    (level : Nat) : String :=
  if level = 0 then pyOr module currentModule
  else
    let prefx := climbPrefix currentModule level
    match module with
    | some m =>
      if m ≠ "" then (if prefx ≠ "" then prefx ++ "." ++ m else m) else prefx
    | none => prefx

/-- The mutable state of extract_tools' first pass: emitted records, the
two counters, and the four accumulated indices, plus the set of already
emitted record ids. -/
structure Pass1State where
  results : List ToolRecord
  files_scanned : Nat
  files_skipped : Nat
  defs_by_full : List (String × ToolRecord)
  exports_by_package : List (String × List (String × String))
  aliases_by_package : List (String × List (String × String))
  all_by_package : List (String × List String)
  seen_ids : List String
deriving DecidableEq, Repr

/-- The state extract_tools starts from. -/
def initialState : Pass1State := ⟨[], 0, 0, [], [], [], [], []⟩

/-- The record built for one public top-level definition. -/
def mkToolRecord (moduleName fileStr : String) (fn : PyFunctionDef) : ToolRecord :=
  { id := moduleName ++ ":" ++ fn.name
    module := moduleName
    name := fn.name
    signature := renderSignature fn
    doc_first_line := docFirstLine fn.doc
    file := fileStr
    lineno := fn.lineno }

/-- One step of the definition-collection loop of pass 1: a public
top-level function appends its record, registers its id and indexes it
under its full dotted path; everything else is skipped. -/
def collectFunc (moduleName fileStr : String) (literalAll : List String)
    (st : Pass1State) (stmt : Stmt) : Pass1State :=
  match stmt with
  | .funcDef fn =>
    if isPublic fn.name literalAll then
      let record := mkToolRecord moduleName fileStr fn
      let newDefs := dictInsert st.defs_by_full (moduleName ++ "." ++ fn.name) record
      { st with results := st.results ++ [record]
                seen_ids := st.seen_ids ++ [record.id]
                defs_by_full := newDefs }
    else st
  | _ => st

/-- One alias binding of a bare relative from-import
(from . import sub as alias): record alias ↦ sub for the package. -/
def initAliasStep (moduleName : String) (st : Pass1State) (a : ImportAlias) :
    Pass1State :=
  let newAliases := nestedInsert st.aliases_by_package moduleName (pyOr a.asname a.name) a.name
  { st with aliases_by_package := newAliases }

/-- One re-export binding of a from-import inside a package init: record
boundName ↦ absMod.name for the package, skipping star imports. -/
def initExportStep (moduleName absMod : String) (st : Pass1State) (a : ImportAlias) :
    Pass1State :=
  if a.name = "*" then st
  else
    let newExports := nestedInsert st.exports_by_package moduleName (pyOr a.asname a.name) (absMod ++ "." ++ a.name)
    { st with exports_by_package := newExports }

/-- One step of the package-init import loop of pass 1: a bare relative
from-import records subpackage aliases, any other from-import records
re-exports (skipping star imports); plain imports and everything else are
ignored. -/
def collectInitStmt (moduleName : String) (st : Pass1State) (stmt : Stmt) :
    Pass1State :=
  match stmt with
  | .importFrom mod level names =>
    let absMod := resolveRelativeModule moduleName mod level
    if mod = none ∧ level > 0 then
      names.foldl (initAliasStep moduleName) st
    else
      names.foldl (initExportStep moduleName absMod) st
  | _ => st

/-- Whether a statement (re)binds the export name b when processed by the
package-init import loop: a from-import other than a bare relative one,
one of whose non-star items binds b. -/
def bindsExport (b : String) : Stmt → Bool
  | .importFrom mod level names =>
    if mod = none ∧ level > 0 then false
    else names.any (fun a => a.name != "*" && pyOr a.asname a.name == b)
  | _ => false

/-- Pass-1 handling of one discovered file: count it, skip it on parse
failure, otherwise collect definitions and (for package inits) __all__,
re-exports and aliases. -/
def processFile (st : Pass1State) (f : PyFile) : Pass1State :=
  let st := { st with files_scanned := st.files_scanned + 1 }
  match f.parse with
  | none => { st with files_skipped := st.files_skipped + 1 }
  | some body =>
    let moduleName := moduleNameFor f.path
    let literalAll := extractLiteralAll body
    let fileStr := String.intercalate "/" f.path
    let st := body.foldl (collectFunc moduleName fileStr literalAll) st
    if f.path.getLastD "" = "__init__.py" then
      let st :=
        if literalAll ≠ [] then
          let newAll := dictInsert st.all_by_package moduleName ((dictLookup st.all_by_package moduleName).getD [] ++ literalAll)
          { st with all_by_package := newAll }
        else st
      body.foldl (collectInitStmt moduleName) st
    else st

/-- Pass 1 of extract_tools over the discovered files (the discovery
order; the CLI feeds them sorted). -/
def pass1 (files : List PyFile) : Pass1State :=
  files.foldl processFile initialState

/-- The scoring helper inside _public_exports_for_package: 3 for an exact
module-leaf match, 2 for a single-leading-underscore match, 1 otherwise. -/
def score (full name : String) : Nat :=
  let leaf := String.mk (lastSegChars (dropLastSegChars full.data))
  if leaf = name then 3
  else if leaf = "_" ++ name then 2
  else 1

/-- The __all__ restriction set used by the heuristic branch. -/
def heurPreferred (st : Pass1State) (pkg : String) : List String :=
  (dictLookup st.all_by_package pkg).getD []

/-- The candidate pool of the heuristic branch: definitions under the
package prefix, falling back to the top-level root segment when none
exist. -/
def heurCandidates (st : Pass1State) (pkg : String) : List String :=
  let cands := (dictKeys st.defs_by_full).filter (fun full => chStartsWith full (pkg ++ "."))
  if cands = [] then
    let top := String.mk (topSegChars pkg.data)
    (dictKeys st.defs_by_full).filter (fun full => chStartsWith full (top ++ "."))
  else cands

/-- One step of the heuristic best-candidate fold: skip candidates barred
by __all__, otherwise keep the strictly better-scoring definition per
name (so earlier candidates win ties). -/
def bestStep (preferred : List String) (best : List (String × String))
    (full : String) : List (String × String) :=
  let name := String.mk (lastSegChars full.data)
  if preferred ≠ [] ∧ ¬ preferred.contains name then best
  else
    match dictLookup best name with
    | none => dictInsert best name full
    | some prev =>
      if score full name > score prev name then dictInsert best name full else best

/-- _public_exports_for_package: the explicit re-export mapping when one
exists, otherwise the heuristic inference over known definitions. -/
def publicExportsForPackage (st : Pass1State) (pkg : String) :
    List (String × String) :=
  let mapping := (dictLookup st.exports_by_package pkg).getD []
  if mapping ≠ [] then mapping
  else
    (heurCandidates st pkg).foldl (bestStep (heurPreferred st pkg)) []

/-- The state of pass 2: the growing record list and the emitted-id set. -/
structure EmitState where
  results : List ToolRecord
  seen_ids : List String
deriving DecidableEq, Repr

/-- The record emitted for a resolved export, carrying over the origin
definition's signature, doc, file and line. -/
def mkEmitRecord (publicModule exportName : String) (src : ToolRecord) : ToolRecord :=
  { id := publicModule ++ ":" ++ exportName
    module := publicModule
    name := exportName
    signature := src.signature
    doc_first_line := src.doc_first_line
    file := src.file
    lineno := src.lineno }

/-- _emit_public: emit a record for a public name when its origin is a
known definition and its id has not been emitted yet. -/
def emitPublic (defs : List (String × ToolRecord)) (e : EmitState)
    (publicModule exportName origin : String) : EmitState :=
  match dictLookup defs origin with
  | none => e
  | some src =>
    let recId := publicModule ++ ":" ++ exportName
    if recId ∈ e.seen_ids then e
    else ⟨e.results ++ [mkEmitRecord publicModule exportName src],
          e.seen_ids ++ [recId]⟩

/-- The canonical enumeration of Python's
set(exports_by_package) | set(all_by_package): pass 2 iterates this set in
an unspecified order, modelled by the order parameter of extractWith. -/
def directPkgs (st : Pass1State) : List String :=
  (dictKeys st.exports_by_package ++ dictKeys st.all_by_package).dedup

/-- extract_tools, with the iteration order of the direct-package set made
explicit: pass 1, then emission for every package of the given order, then
emission for every aliased subpackage. -/
def extractWith (files : List PyFile) (order : List String) :
    List ToolRecord × Nat × Nat :=
  let st := pass1 files
  let e0 : EmitState := ⟨st.results, st.seen_ids⟩
  let e1 := order.foldl (fun e pkg =>
    (publicExportsForPackage st pkg).foldl
      (fun e p => emitPublic st.defs_by_full e pkg p.1 p.2) e) e0
  let e2 := st.aliases_by_package.foldl (fun e pa =>
    pa.2.foldl (fun e ab =>
      (publicExportsForPackage st (pa.1 ++ "." ++ ab.2)).foldl
        (fun e p => emitPublic st.defs_by_full e (pa.1 ++ "." ++ ab.1) p.1 p.2) e) e) e1
  (e2.results, st.files_scanned, st.files_skipped)

/-- extract_tools with the canonical direct-package enumeration. -/
def extractTools (files : List PyFile) : List ToolRecord × Nat × Nat :=
  extractWith files (directPkgs (pass1 files))

/-- The sort key the CLI uses: (module, name). -/
def recordKey (r : ToolRecord) : String × String := (r.module, r.name)

/-- Lexicographic order on the (module, name) sort key, as tuple
comparison orders it. -/
def keyLe (a b : String × String) : Prop :=
  a.1 < b.1 ∨ (a.1 = b.1 ∧ a.2 ≤ b.2)

instance : DecidableRel keyLe := fun a b => by
  unfold keyLe; infer_instance

instance : IsTotal (String × String) keyLe := by
  constructor
  intro a b
  rcases lt_trichotomy a.1 b.1 with h | h | h
  · exact Or.inl (Or.inl h)
  · rcases le_total a.2 b.2 with h2 | h2
    · exact Or.inl (Or.inr ⟨h, h2⟩)
    · exact Or.inr (Or.inr ⟨h.symm, h2⟩)
  · exact Or.inr (Or.inl h)

instance : IsTrans (String × String) keyLe := by
  constructor
  intro a b c hab hbc
  rcases hab with h1 | h1
  · rcases hbc with h2 | h2
    · exact Or.inl (lt_trans h1 h2)
    · exact Or.inl (h2.1 ▸ h1)
  · rcases hbc with h2 | h2
    · exact Or.inl (h1.1 ▸ h2)
    · exact Or.inr ⟨h1.1.trans h2.1, le_trans h1.2 h2.2⟩

instance : IsAntisymm (String × String) keyLe := by
  constructor
  intro a b hab hba
  rcases hab with h1 | h1
  · rcases hba with h2 | h2
    · exact absurd (lt_trans h1 h2) (lt_irrefl _)
    · exact absurd (h2.1 ▸ h1) (lt_irrefl _)
  · rcases hba with h2 | h2
    · exact absurd (h1.1 ▸ h2) (lt_irrefl _)
    · exact Prod.ext h1.1 (le_antisymm h1.2 h2.2)

/-- Python's sorted(tools, key=(module, name)) is a stable sort; a stable
sort by key is exactly: the key classes, in original order inside each
class, concatenated in increasing key order.  This definition is that
characterization. -/
def pySortedRecords (l : List ToolRecord) : List ToolRecord :=
  (((l.map recordKey).dedup).insertionSort keyLe).flatMap
    (fun k => l.filter (fun r => recordKey r = k))

/-- The deterministic ordering step of cli.main. -/
def toolsSorted (tools : List ToolRecord) : List ToolRecord :=
  pySortedRecords tools

/-- Identifier names produced by the Python parser contain neither ':'
nor '.'; the well-formedness checks below record exactly that about the
names a parsed file can bind (function names, import names and aliases). -/
def identOk (s : String) : Bool :=
  s.data.all (fun c => c != ':' && c != '.')

/-- Well-formedness of one import item: its name and alias are parser
identifiers (the star of a star-import also passes). -/
def importAliasOk (a : ImportAlias) : Bool :=
  identOk a.name &&
    (match a.asname with
     | some s => identOk s
     | none => true)

/-- Well-formedness of one statement: bound names are parser identifiers. -/
def stmtWF : Stmt → Bool
  | .funcDef fn => identOk fn.name
  | .importFrom _ _ names => names.all importAliasOk
  | _ => true

/-- Well-formedness of one file's parse result. -/
def fileWF (f : PyFile) : Bool :=
  match f.parse with
  | some body => body.all stmtWF
  | none => true

/-- Well-formedness of a parsed tree: every file's bound names are parser
identifiers.  Any tree obtained from real Python source satisfies this. -/
def treeWF (files : List PyFile) : Bool :=
  files.all fileWF

/-! Proof-support definitions: the two emission loops of pass 2 flattened
to a single fold over (public module, export name, origin) triples, an
explicit description of the records such a fold appends, and the
invariants that pass 1 establishes. -/

/-- The record id `module:name`. -/
def mkId (m n : String) : String := m ++ ":" ++ n

/-- One pass-2 emission step, on a flattened triple. -/
def emitStep (defs : List (String × ToolRecord)) (e : EmitState)
    (t : String × String × String) : EmitState :=
  emitPublic defs e t.1 t.2.1 t.2.2

/-- Pass 2 as a single fold over emission triples. -/
def emitFold (defs : List (String × ToolRecord)) (e : EmitState)
    (ts : List (String × String × String)) : EmitState :=
  ts.foldl (emitStep defs) e

/-- The list of records a triple fold appends, as a function of the seen
set it starts from. -/
def emitNewList (defs : List (String × ToolRecord)) :
    List (String × String × String) → List String → List ToolRecord
  | [], _ => []
  | t :: ts, seen =>
    match dictLookup defs t.2.2 with
    | none => emitNewList defs ts seen
    | some src =>
      if mkId t.1 t.2.1 ∈ seen then emitNewList defs ts seen
      else mkEmitRecord t.1 t.2.1 src :: emitNewList defs ts (seen ++ [mkId t.1 t.2.1])

/-- The emission triples of one package's resolved export mapping. -/
def pkgTriples (pkg : String) (m : List (String × String)) :
    List (String × String × String) :=
  m.map (fun p => (pkg, p.1, p.2))

/-- The emission triples of the direct-package loop, in the given order. -/
def directTriples (st : Pass1State) (order : List String) :
    List (String × String × String) :=
  order.flatMap (fun pkg => pkgTriples pkg (publicExportsForPackage st pkg))

/-- The emission triples of the aliased-subpackage loop. -/
def aliasTriples (st : Pass1State) : List (String × String × String) :=
  st.aliases_by_package.flatMap (fun pa =>
    pa.2.flatMap (fun ab =>
      pkgTriples (pa.1 ++ "." ++ ab.1) (publicExportsForPackage st (pa.1 ++ "." ++ ab.2))))

/-- The records one package of the direct loop appends, given that the
only previously seen ids that can collide with this package's candidate
ids are those of the base seen set (pass 1): used to show the loop's
per-package contributions are mutually independent. -/
def pkgNewList (defs : List (String × ToolRecord)) (baseSeen : List String)
    (pkg : String) : List (String × String) → List ToolRecord
  | [] => []
  | p :: rest =>
    match dictLookup defs p.2 with
    | none => pkgNewList defs baseSeen pkg rest
    | some src =>
      if mkId pkg p.1 ∈ baseSeen then pkgNewList defs baseSeen pkg rest
      else mkEmitRecord pkg p.1 src :: pkgNewList defs baseSeen pkg rest

/-- The first best-scoring candidate for one export name, threading the
current best exactly like the per-name projection of the heuristic fold. -/
def firstBestAux (name : String) : Option String → List String → Option String
  | cur, [] => cur
  | cur, full :: rest =>
    if String.mk (lastSegChars full.data) = name then
      match cur with
      | none => firstBestAux name (some full) rest
      | some prev =>
        if score full name > score prev name then firstBestAux name (some full) rest
        else firstBestAux name cur rest
    else firstBestAux name cur rest

/-- The __all__ gate of the heuristic fold, as a keep predicate. -/
def heurKeep (preferred : List String) (full : String) : Bool :=
  let name := String.mk (lastSegChars full.data)
  if preferred ≠ [] ∧ ¬ preferred.contains name then false else true

/-- The heuristic candidate pool after the __all__ restriction. -/
def heurFiltered (st : Pass1State) (pkg : String) : List String :=
  (heurCandidates st pkg).filter (heurKeep (heurPreferred st pkg))

/-- Structural invariants pass 1 always establishes: the seen-id set is
exactly the ids of the emitted records, every record's id is its module
and name joined by a colon, and the per-package export maps and the
definitions index have distinct keys. -/
structure Pass1Inv (st : Pass1State) : Prop where
  seen_eq : st.seen_ids = st.results.map (fun r => r.id)
  rec_id : ∀ r ∈ st.results, r.id = r.module ++ ":" ++ r.name
  exp_keys : ∀ pa ∈ st.exports_by_package, (dictKeys pa.2).Nodup
  defs_keys : (dictKeys st.defs_by_full).Nodup

/-- Name invariants pass 1 establishes on well-formed trees: record
names, export names and the trailing segments of definition keys are
parser identifiers, hence colon-free. -/
structure Pass1CF (st : Pass1State) : Prop where
  rec_name : ∀ r ∈ st.results, ':' ∉ r.name.data
  exp_names : ∀ pa ∈ st.exports_by_package, ∀ q ∈ pa.2, ':' ∉ q.1.data
  defs_leaf : ∀ k ∈ dictKeys st.defs_by_full, ':' ∉ lastSegChars k.data

/-- The resolved export mapping of every package has distinct, colon-free
export names (consequence of the two invariants above). -/
def MapWF (st : Pass1State) : Prop :=
  ∀ pkg, ((publicExportsForPackage st pkg).map (fun p => p.1)).Nodup ∧
    ∀ p ∈ publicExportsForPackage st pkg, ':' ∉ (p.1 : String).data

/-! Concrete inputs used by the counterexamples and witnesses below. -/

/-- An empty parameter list. -/
def argsEmpty : PyArguments := ⟨[], [], none, [], [], none, []⟩

/-- The parameter list of a definition `(a)`. -/
def argsA : PyArguments := ⟨[], [⟨"a", none⟩], none, [], [], none, []⟩

/-- The parameter list of a definition `(x, y)`. -/
def argsXY : PyArguments := ⟨[], [⟨"x", none⟩, ⟨"y", none⟩], none, [], [], none, []⟩

/-- The parameter structure of `foo(a, b=1, *, c)`: two
positional-or-keyword parameters with one trailing default, one
keyword-only parameter without a default. -/
def argsFoo : PyArguments := ⟨[], [⟨"a", none⟩, ⟨"b", none⟩], none, [⟨"c", none⟩], [none], none, [()]⟩

/-- The synthetic definition `def foo(a, b=1, *, c): ...`. -/
def fooDef : PyFunctionDef := ⟨"foo", argsFoo, none, false, none, 1⟩

/-- A module defining two public top-level functions of the same name
(legal Python; the later definition shadows the earlier at runtime). -/
def treeDupDef : List PyFile :=
  [⟨["m.py"], some [.funcDef ⟨"f", argsEmpty, none, false, none, 1⟩,
                    .funcDef ⟨"f", argsEmpty, none, false, none, 5⟩]⟩]

/-- A tree with one unreadable-or-unparsable file. -/
def treeSkip : List PyFile := [⟨["bad.py"], none⟩]

/-- A package init containing only a plain import with an alias. -/
def treePlainImport : List PyFile :=
  [⟨["p", "__init__.py"], some [.importPlain [⟨"os", some "o"⟩]]⟩,
   ⟨["m.py"], some [.importFrom (some "x") 0 [⟨"f", none⟩]]⟩]

/-- A package whose init both re-exports sub.helper under the name pub
and defines its own public function pub. -/
def treeShadowedExport : List PyFile :=
  [⟨["p", "__init__.py"], some [.importFrom (some "sub") 1 [⟨"helper", some "pub"⟩],
                                .funcDef ⟨"pub", argsXY, none, false, none, 2⟩]⟩,
   ⟨["p", "sub.py"], some [.funcDef ⟨"helper", argsA, none, false, some "Add one.", 1⟩]⟩]

/-- A clean aliased re-export: the init re-exports sub.helper as pub and
defines nothing itself. -/
def treeCleanExport : List PyFile :=
  [⟨["p", "__init__.py"], some [.importFrom (some "sub") 1 [⟨"helper", some "pub"⟩]]⟩,
   ⟨["p", "sub.py"], some [.funcDef ⟨"helper", argsA, none, false, some "Add one.", 1⟩]⟩]

/-- A package aliasing its subpackage (from . import sub as s) whose
subpackage's only resolved export points at a module that does not exist
in the tree. -/
def treeAliasUnknownOrigin : List PyFile :=
  [⟨["p", "__init__.py"], some [.importFrom none 1 [⟨"sub", some "s"⟩]]⟩,
   ⟨["p", "sub", "__init__.py"], some [.importFrom (some "x") 1 [⟨"f", none⟩]]⟩]

/-- A package aliasing its subpackage whose subpackage re-exports a known
definition. -/
def treeAliasKnownOrigin : List PyFile :=
  [⟨["p", "__init__.py"], some [.importFrom none 1 [⟨"sub", some "s"⟩]]⟩,
   ⟨["p", "sub", "__init__.py"], some [.importFrom (some "mod") 1 [⟨"f", none⟩]]⟩,
   ⟨["p", "sub", "mod.py"], some [.funcDef ⟨"f", argsA, none, false, none, 1⟩]⟩]

/-- Two unrelated packages, each with one explicit re-export: used to
exercise two different orders of the direct-package set. -/
def treeTwoPkgs : List PyFile :=
  [⟨["p", "__init__.py"], some [.importFrom (some "sub") 1 [⟨"f", none⟩]]⟩,
   ⟨["p", "sub.py"], some [.funcDef ⟨"f", argsA, none, false, none, 1⟩]⟩,
   ⟨["q", "__init__.py"], some [.importFrom (some "sub") 1 [⟨"g", none⟩]]⟩,
   ⟨["q", "sub.py"], some [.funcDef ⟨"g", argsXY, none, false, none, 1⟩]⟩]

/-- A package with an __all__, two same-named candidates of different
module-leaf quality and one candidate barred by __all__: used to exercise
the heuristic inference. -/
def treeHeuristic : List PyFile :=
  [⟨["p", "__init__.py"], some [.assign [.nameTgt "__all__"] (.containerVal [.strElt "run"])]⟩,
   ⟨["p", "_run.py"], some [.funcDef ⟨"run", argsA, none, false, none, 3⟩]⟩,
   ⟨["p", "run.py"], some [.funcDef ⟨"run", argsXY, none, false, none, 4⟩]⟩,
   ⟨["p", "other.py"], some [.funcDef ⟨"run", argsEmpty, none, false, none, 5⟩,
                             .funcDef ⟨"walk", argsEmpty, none, false, none, 9⟩]⟩]

/-- A one-record definitions index used to exercise _emit_public. -/
def defsOne : List (String × ToolRecord) :=
  [("a.f", mkToolRecord "a" "a.py" ⟨"f", argsA, none, false, none, 1⟩)]

/-- The record that pass 1 builds for helper in treeCleanExport. -/
def srcHelperClean : ToolRecord :=
  mkToolRecord "p.sub" "p/sub.py" ⟨"helper", argsA, none, false, some "Add one.", 1⟩

/-- The record that pass 1 builds for f in treeAliasKnownOrigin. -/
def srcModF : ToolRecord :=
  mkToolRecord "p.sub.mod" "p/sub/mod.py" ⟨"f", argsA, none, false, none, 1⟩

/-! Association-list (Python dict) lemmas. -/

theorem dictLookup_insert_self {α : Type} (d : List (String × α)) (k : String) (v : α) :
    dictLookup (dictInsert d k v) k = some v := by
  induction d with
  | nil => simp [dictInsert, dictLookup]
  | cons p rest ih =>
    obtain ⟨k1, v1⟩ := p
    by_cases h : k1 = k
    · simp [dictInsert, h, dictLookup]
    · simp [dictInsert, h, dictLookup, ih]

theorem dictLookup_insert_ne {α : Type} (d : List (String × α)) (k : String) (v : α)
    (q : String) (h : k ≠ q) : dictLookup (dictInsert d k v) q = dictLookup d q := by
  induction d with
  | nil => simp [dictInsert, dictLookup, h]
  | cons p rest ih =>
    obtain ⟨k1, v1⟩ := p
    by_cases h1 : k1 = k
    · subst h1
      simp [dictInsert, dictLookup, h]
    · simp [dictInsert, h1, dictLookup, ih]

theorem mem_keys_of_dictLookup {α : Type} {d : List (String × α)} {k : String} {v : α}
    (h : dictLookup d k = some v) : k ∈ dictKeys d := by
  induction d with
  | nil => simp [dictLookup] at h
  | cons p rest ih =>
    obtain ⟨k1, v1⟩ := p
    by_cases h1 : k1 = k
    · simp [dictKeys, h1]
    · simp only [dictLookup, h1, if_false] at h
      simpa [dictKeys] using Or.inr (by simpa [dictKeys] using ih h)

theorem dictLookup_mem {α : Type} {d : List (String × α)} {k : String} {v : α}
    (h : dictLookup d k = some v) : (k, v) ∈ d := by
  induction d with
  | nil => simp [dictLookup] at h
  | cons p rest ih =>
    obtain ⟨k1, v1⟩ := p
    by_cases h1 : k1 = k
    · simp only [dictLookup, h1, if_true] at h
      cases h
      simp [h1]
    · simp only [dictLookup, h1, if_false] at h
      exact List.mem_cons_of_mem _ (ih h)

theorem mem_keys_of_mem {α : Type} {d : List (String × α)} {k : String} {v : α}
    (h : (k, v) ∈ d) : k ∈ dictKeys d :=
  List.mem_map.mpr ⟨(k, v), h, rfl⟩

theorem dictLookup_eq_some_of_mem {α : Type} {d : List (String × α)} {k : String} {v : α}
    (hmem : (k, v) ∈ d) (hnd : (dictKeys d).Nodup) : dictLookup d k = some v := by
  induction d with
  | nil => simp at hmem
  | cons p rest ih =>
    obtain ⟨k1, v1⟩ := p
    have hcons : dictKeys ((k1, v1) :: rest) = k1 :: dictKeys rest := rfl
    rw [hcons] at hnd
    have hn1 := (List.nodup_cons.mp hnd).1
    have hn2 := (List.nodup_cons.mp hnd).2
    rcases List.mem_cons.mp hmem with h | h
    · cases h
      simp [dictLookup]
    · have hk : k1 ≠ k := by
        intro he
        subst he
        exact hn1 (mem_keys_of_mem h)
      simp only [dictLookup, hk, if_false]
      exact ih h hn2

theorem dictKeys_insert {α : Type} (d : List (String × α)) (k : String) (v : α) :
    dictKeys (dictInsert d k v) =
      if k ∈ dictKeys d then dictKeys d else dictKeys d ++ [k] := by
  induction d with
  | nil => simp [dictInsert, dictKeys]
  | cons p rest ih =>
    obtain ⟨k1, v1⟩ := p
    by_cases h : k1 = k
    · subst h
      simp [dictInsert, dictKeys]
    · have hne : ¬ k = k1 := fun he => h he.symm
      simp only [dictInsert, h, if_false, dictKeys, List.map_cons]
      simp only [dictKeys] at ih
      rw [ih]
      by_cases hmem : k ∈ List.map (fun p => p.1) rest
      · simp [hmem, hne]
      · simp [hmem, hne]

theorem dictKeys_insert_nodup {α : Type} {d : List (String × α)} (k : String) (v : α)
    (h : (dictKeys d).Nodup) : (dictKeys (dictInsert d k v)).Nodup := by
  rw [dictKeys_insert]
  by_cases hmem : k ∈ dictKeys d
  · simpa [hmem] using h
  · simp only [hmem, if_false]
    simpa [List.nodup_append, hmem] using h

theorem mem_dictInsert {α : Type} {d : List (String × α)} {k : String} {v : α}
    {q : String × α} (h : q ∈ dictInsert d k v) : q = (k, v) ∨ q ∈ d := by
  induction d with
  | nil => simpa [dictInsert] using h
  | cons p rest ih =>
    obtain ⟨k1, v1⟩ := p
    by_cases h1 : k1 = k
    · simp only [dictInsert, h1, if_true] at h
      rcases List.mem_cons.mp h with h | h
      · exact Or.inl h
      · exact Or.inr (List.mem_cons_of_mem _ h)
    · simp only [dictInsert, h1, if_false] at h
      rcases List.mem_cons.mp h with h | h
      · exact Or.inr (by simp [h])
      · rcases ih h with h | h
        · exact Or.inl h
        · exact Or.inr (List.mem_cons_of_mem _ h)

/-! Character-list and string lemmas. -/

theorem string_data_inj {s t : String} (h : s.data = t.data) : s = t := by
  cases s
  cases t
  exact congrArg String.mk h

theorem mkId_data (m n : String) : (mkId m n).data = m.data ++ ':' :: n.data := by
  show (m ++ ":" ++ n).data = m.data ++ ':' :: n.data
  rw [String.data_append, String.data_append, List.append_assoc]
  rfl

theorem lastSep_inj {a : List Char} :
    ∀ {c b d : List Char}, ':' ∉ b → ':' ∉ d →
      a ++ ':' :: b = c ++ ':' :: d → a = c ∧ b = d := by
  induction a with
  | nil =>
    intro c b d hb hd h
    cases c with
    | nil => simpa using h
    | cons x xs =>
      simp only [List.nil_append, List.cons_append, List.cons.injEq] at h
      exfalso
      apply hb
      rw [h.2]
      exact List.mem_append_right _ (by simp [h.1])
  | cons x xs ih =>
    intro c b d hb hd h
    cases c with
    | nil =>
      simp only [List.nil_append, List.cons_append, List.cons.injEq] at h
      exfalso
      apply hd
      rw [← h.2]
      exact List.mem_append_right _ (by simp [← h.1])
    | cons y ys =>
      simp only [List.cons_append, List.cons.injEq] at h
      obtain ⟨h1, h2⟩ := ih hb hd h.2
      exact ⟨by simp [h.1, h1], h2⟩

theorem mkId_inj {m1 n1 m2 n2 : String} (h1 : ':' ∉ n1.data) (h2 : ':' ∉ n2.data)
    (h : mkId m1 n1 = mkId m2 n2) : m1 = m2 ∧ n1 = n2 := by
  have hd : m1.data ++ ':' :: n1.data = m2.data ++ ':' :: n2.data := by
    rw [← mkId_data, ← mkId_data, h]
  obtain ⟨ha, hb⟩ := lastSep_inj h1 h2 hd
  exact ⟨string_data_inj ha, string_data_inj hb⟩

theorem mkId_inj_right {m n1 n2 : String} (h : mkId m n1 = mkId m n2) : n1 = n2 := by
  have hd : m.data ++ ':' :: n1.data = m.data ++ ':' :: n2.data := by
    rw [← mkId_data, ← mkId_data, h]
  have := List.append_cancel_left hd
  exact string_data_inj (by simpa using this)

theorem takeWhile_all_append {p : Char → Bool} {l1 l2 : List Char} {x : Char}
    (h : ∀ c ∈ l1, p c = true) (hx : p x = false) :
    (l1 ++ x :: l2).takeWhile p = l1 := by
  induction l1 with
  | nil => simp [List.takeWhile, hx]
  | cons c cs ih =>
    have hc : p c = true := h c (by simp)
    simp only [List.cons_append, List.takeWhile_cons, hc, if_true]
    rw [ih (fun d hd => h d (by simp [hd]))]

theorem lastSegChars_append_dot {m n : List Char} (h : '.' ∉ n) :
    lastSegChars (m ++ '.' :: n) = n := by
  unfold lastSegChars
  rw [List.reverse_append, List.reverse_cons, List.append_assoc]
  have hall : ∀ c ∈ n.reverse, (c != '.') = true := by
    intro c hc
    have : c ∈ n := List.mem_reverse.mp hc
    have hne : c ≠ '.' := fun he => h (he ▸ this)
    simpa using hne
  rw [List.singleton_append, takeWhile_all_append hall (by simp)]
  simp

theorem identOk_colon {s : String} (h : identOk s = true) : ':' ∉ s.data := by
  intro hmem
  have := (List.all_eq_true.mp h) ':' hmem
  simp at this

theorem identOk_dot {s : String} (h : identOk s = true) : '.' ∉ s.data := by
  intro hmem
  have := (List.all_eq_true.mp h) '.' hmem
  simp at this

theorem importAliasOk_bound {a : ImportAlias} (h : importAliasOk a = true) :
    identOk (pyOr a.asname a.name) = true := by
  unfold importAliasOk at h
  rw [Bool.and_eq_true] at h
  unfold pyOr
  cases ha : a.asname with
  | none => exact h.1
  | some s =>
    by_cases hs : s = ""
    · simpa [hs] using h.1
    · have := h.2
      rw [ha] at this
      simpa [hs] using this

/-- Python slicing l[:k] for a nonnegative index is List.take. -/
theorem pyTake_of_nonneg (l : List String) (k : Int) (h : 0 ≤ k) :
    pyTake l k = l.take k.toNat := by
  unfold pyTake
  rw [if_neg (by omega)]

/-! Claim theorems start here. -/

/-- C5: rendering the synthetic definition foo(a, b=1, *, c) — two
positional-or-keyword parameters with one trailing default, one
keyword-only parameter without a default, no annotations, no return
annotation — yields exactly "def foo(a, b=..., *, c)": the default is
marked by the literal ellipsis placeholder, the single default
right-aligns against the combined positional list, and a bare star
separator is emitted before the keyword-only group. -/
theorem C5_render_foo : renderSignature fooDef = "def foo(a, b=..., *, c)" := by
  decide

/-- C10: when a resolved export's origin full dotted path is not present
in the definitions index, _emit_public returns the state unchanged: no
record is emitted, no error is raised, and all later emission starts from
the same state. -/
theorem C10_unknown_origin (defs : List (String × ToolRecord)) (e : EmitState)
    (pm en origin : String) (h : dictLookup defs origin = none) :
    emitPublic defs e pm en origin = e := by
  unfold emitPublic
  rw [h]

/-- C10 witness: a concrete emission whose origin is unknown. -/
theorem C10_witness :
    dictLookup defsOne "b.g" = none ∧ emitPublic defsOne ⟨[], []⟩ "m" "x" "b.g" = ⟨[], []⟩ :=
  ⟨by decide, C10_unknown_origin defsOne ⟨[], []⟩ "m" "x" "b.g" (by decide)⟩

/-- C3 (amended): a file that fails to read or parse never aborts the run
(processing is total), contributes no records and no index entries, and
increments the skip counter; it is also counted by the scanned-files
counter, which counts every discovered file. -/
theorem C3_skip_only_counters (st : Pass1State) (f : PyFile) (h : f.parse = none) :
    processFile st f =
      { st with files_scanned := st.files_scanned + 1, files_skipped := st.files_skipped + 1 } := by
  unfold processFile
  rw [h]

/-- C3 witness: the skip path on a concrete state and file. -/
theorem C3_witness :
    processFile initialState ⟨["bad.py"], none⟩ = ⟨[], 1, 1, [], [], [], [], []⟩ :=
  (C3_skip_only_counters initialState ⟨["bad.py"], none⟩ rfl).trans (by decide)

/-- C3 (counterexample): on a tree whose only file fails to parse, the
run reports files_scanned = 1 and files_skipped = 1 — the skipped file is
counted by the scanned-files counter as well, so it does not increment
only the skip counter as claimed. -/
theorem C3_counterexample :
    extractTools treeSkip = ([], 1, 1) ∧ (extractTools treeSkip).2.1 ≠ 0 := by
  exact ⟨by decide, by decide⟩

/-- C1 (counterexample): a module with two same-named public top-level
functions (legal Python) makes pass 1 emit the id "m:f" twice, so the
output of extract_tools is not id-deduplicated for pass-1 definition
records: the first emission does not win, both are kept. -/
theorem C1_counterexample :
    (extractTools treeDupDef).1.map (fun r => r.id) = ["m:f", "m:f"] ∧
      ¬ ((extractTools treeDupDef).1.map (fun r => r.id)).Nodup := by
  exact ⟨by decide, by decide⟩

/-- C4 (counterexample): a package init containing only the plain import
`import os as o`, and a plain module containing the from-import
`from x import f`, contribute no import-edge binding anywhere: both
accumulated maps stay empty, while the claim requires a binding o ↦ os
(and f ↦ x.f) for every processed file. -/
theorem C4_counterexample :
    (pass1 treePlainImport).exports_by_package = [] ∧
      (pass1 treePlainImport).aliases_by_package = [] := by
  exact ⟨by decide, by decide⟩

/-- C8 (counterexample): in treeShadowedExport the package init both
declares `from .sub import helper as pub` (and sub.helper is a known
public top-level definition) and defines its own public function pub; the
only output record with id "p:pub" carries the local definition's
signature "def pub(x, y)", not the origin's "def helper(a)", so the
claimed field equality fails. -/
theorem C8_counterexample :
    ((extractTools treeShadowedExport).1.filter (fun r => r.id = "p:pub")).map
        (fun r => r.signature) = ["def pub(x, y)"] ∧
      (dictLookup (pass1 treeShadowedExport).defs_by_full "p.sub.helper").map
        (fun r => r.signature) = some "def helper(a)" ∧
      ("def pub(x, y)" : String) ≠ "def helper(a)" := by
  exact ⟨by decide, by decide, by decide⟩

/-- C9 (counterexample): in treeAliasUnknownOrigin the package p aliases
its subpackage (from . import sub as s) and the child package p.sub
resolves the export f ↦ p.sub.x.f, but that origin is not a known
definition, so nothing at all is emitted — no record under the synthetic
module p.s re-publishes the resolved export f. -/
theorem C9_counterexample :
    publicExportsForPackage (pass1 treeAliasUnknownOrigin) "p.sub" = [("f", "p.sub.x.f")] ∧
      dictLookup2 (pass1 treeAliasUnknownOrigin).aliases_by_package "p" "s" = some "sub" ∧
      (extractTools treeAliasUnknownOrigin).1 = [] := by
  exact ⟨by decide, by decide, by decide⟩

/-- C6 (counterexample): resolving a relative import from current module
"a.b" with no explicit fragment at level 4: climbing one parent per level
beyond the first would leave at most the empty package prefix (keeping
max(0, 2-4+1) = 0 segments), but the code computes the Python slice
parts[:-1] and returns "a". -/
theorem C6_counterexample :
    resolveRelativeModule "a.b" none 4 = "a" ∧ ("a" : String) ≠ "" := by
  exact ⟨by decide, by decide⟩

/-- C6 (amended): for a relative import at level L with
1 ≤ L ≤ len(parts)+1 (parts the dot-segments of the current module, all
nonempty), resolution keeps the first len(parts)+1-L segments — one
parent climbed per level beyond the first — then appends the explicit
module fragment to the joined prefix when a nonempty fragment is present,
and returns the climbed prefix itself otherwise; for larger L the code
instead keeps the Python slice parts[:len(parts)-L+1], which wraps around
from the end of the list. -/
theorem C6_resolve_relative (current : String) (M : Option String) (L : Nat)
    (parts : List String)
    (hparts : parts = (splitDots current.data).map (fun cs => String.mk cs))
    (h1 : 1 ≤ L) (h2 : L ≤ parts.length + 1) (h3 : ∀ p ∈ parts, p ≠ "")
    (prefx : String)
    (hprefx : prefx = String.intercalate "." (parts.take (parts.length + 1 - L))) :
    resolveRelativeModule current M L =
      match M with
      | some m => if m ≠ "" then (if prefx ≠ "" then prefx ++ "." ++ m else m) else prefx
      | none => prefx := by
  have hL0 : ¬ (L = 0) := by omega
  have hclimb : climbPrefix current L = prefx := by
    unfold climbPrefix
    rw [← hparts]
    show String.intercalate "."
        ((pyTake parts ((parts.length : Int) - (L : Int) + 1)).filter (fun p => p != "")) = prefx
    rw [pyTake_of_nonneg _ _ (by omega)]
    have hTon : ((parts.length : Int) - (L : Int) + 1).toNat = parts.length + 1 - L := by
      omega
    rw [hTon]
    have hAll : ∀ p ∈ parts.take (parts.length + 1 - L), (p != "") = true := by
      intro p hp
      have := h3 p (List.mem_of_mem_take hp)
      simpa using this
    rw [List.filter_eq_self.mpr hAll]
    rw [← hprefx]
  unfold resolveRelativeModule
  rw [if_neg hL0]
  rw [hclimb]

/-- C6 witness: one level climbed from a.b.c with fragment x gives a.b.x. -/
theorem C6_witness : resolveRelativeModule "a.b.c" (some "x") 2 = "a.b.x" := by
  have h := C6_resolve_relative "a.b.c" (some "x") 2 ["a", "b", "c"] (by decide)
    (by decide) (by decide) (by decide) "a.b" (by decide)
  exact h.trans (by decide)

/-! Generic fold helpers. -/

theorem foldl_preserve {σ α : Type} (P : σ → Prop) (f : σ → α → σ) :
    ∀ (l : List α) (st : σ), (∀ st1 x, x ∈ l → P st1 → P (f st1 x)) → P st → P (l.foldl f st)
  | [], st, _, h => h
  | x :: xs, st, hstep, h => by
    have h1 : P (f st x) := hstep st x (by simp) h
    exact foldl_preserve P f xs (f st x) (fun st1 y hy => hstep st1 y (by simp [hy])) h1

theorem foldl_flatMap {α β σ : Type} (f : σ → β → σ) (g : α → List β) :
    ∀ (l : List α) (s : σ),
      l.foldl (fun s x => (g x).foldl f s) s = (l.flatMap g).foldl f s
  | [], _ => rfl
  | x :: xs, s => by
    rw [List.flatMap_cons, List.foldl_append]
    exact foldl_flatMap f g xs ((g x).foldl f s)

/-! Pass-1 invariants. -/

theorem collectFunc_inv (mn fs : String) (la : List String) (st : Pass1State)
    (stmt : Stmt) (h : Pass1Inv st) : Pass1Inv (collectFunc mn fs la st stmt) := by
  cases stmt with
  | funcDef fn =>
    simp only [collectFunc]
    by_cases hp : isPublic fn.name la = true
    · rw [if_pos hp]
      refine ⟨?_, ?_, h.exp_keys, ?_⟩
      · simp [h.seen_eq]
      · intro r hr
        rcases List.mem_append.mp hr with hr | hr
        · exact h.rec_id r hr
        · rcases List.mem_singleton.mp hr with rfl
          rfl
      · exact dictKeys_insert_nodup _ _ h.defs_keys
    · rw [if_neg hp]
      exact h
  | assign targets value => exact h
  | importFrom mod level names => exact h
  | importPlain names => exact h
  | otherStmt => exact h

theorem collectInitStmt_inv (mn : String) (st : Pass1State) (stmt : Stmt)
    (h : Pass1Inv st) : Pass1Inv (collectInitStmt mn st stmt) := by
  cases stmt with
  | importFrom mod level names =>
    simp only [collectInitStmt]
    by_cases hb : mod = none ∧ level > 0
    · rw [if_pos hb]
      refine foldl_preserve _ _ names st (fun st1 a _ h1 => ?_) h
      exact ⟨h1.seen_eq, h1.rec_id, h1.exp_keys, h1.defs_keys⟩
    · rw [if_neg hb]
      refine foldl_preserve _ _ names st (fun st1 a _ h1 => ?_) h
      unfold initExportStep
      by_cases hstar : a.name = "*"
      · rw [if_pos hstar]
        exact h1
      · rw [if_neg hstar]
        refine ⟨h1.seen_eq, h1.rec_id, ?_, h1.defs_keys⟩
        intro pa hpa
        rcases mem_dictInsert hpa with hpa | hpa
        · cases hpa
          cases hlook : dictLookup st1.exports_by_package mn with
          | none => simpa [hlook] using dictKeys_insert_nodup _ _ (by simp [dictKeys])
          | some inner =>
            have := h1.exp_keys (mn, inner) (dictLookup_mem hlook)
            simpa [hlook] using dictKeys_insert_nodup _ _ this
        · exact h1.exp_keys pa hpa
  | funcDef fn => exact h
  | assign targets value => exact h
  | importPlain names => exact h
  | otherStmt => exact h

theorem processFile_inv (st : Pass1State) (f : PyFile) (h : Pass1Inv st) :
    Pass1Inv (processFile st f) := by
  have hc : Pass1Inv { st with files_scanned := st.files_scanned + 1 } :=
    ⟨h.seen_eq, h.rec_id, h.exp_keys, h.defs_keys⟩
  cases hp : f.parse with
  | none =>
    simp only [processFile, hp]
    exact ⟨hc.seen_eq, hc.rec_id, hc.exp_keys, hc.defs_keys⟩
  | some body =>
    simp only [processFile, hp]
    have h1 : Pass1Inv (body.foldl
        (collectFunc (moduleNameFor f.path) (String.intercalate "/" f.path) (extractLiteralAll body))
        { st with files_scanned := st.files_scanned + 1 }) :=
      foldl_preserve _ _ body _ (fun st1 stmt _ h1 => collectFunc_inv _ _ _ _ _ h1) hc
    by_cases hinit : f.path.getLastD "" = "__init__.py"
    · rw [if_pos hinit]
      by_cases hall : extractLiteralAll body ≠ []
      · rw [if_pos hall]
        refine foldl_preserve _ _ body _ (fun st1 stmt _ h2 => collectInitStmt_inv _ _ _ h2) ?_
        exact ⟨h1.seen_eq, h1.rec_id, h1.exp_keys, h1.defs_keys⟩
      · rw [if_neg hall]
        exact foldl_preserve _ _ body _ (fun st1 stmt _ h2 => collectInitStmt_inv _ _ _ h2) h1
    · rw [if_neg hinit]
      exact h1

theorem pass1_inv (files : List PyFile) : Pass1Inv (pass1 files) := by
  unfold pass1
  refine foldl_preserve _ _ files initialState (fun st f _ h => processFile_inv st f h) ?_
  exact ⟨rfl, by simp [initialState], by simp [initialState], by simp [initialState, dictKeys]⟩

theorem dotJoin_data (m n : String) : (m ++ "." ++ n).data = m.data ++ '.' :: n.data := by
  rw [String.data_append, String.data_append, List.append_assoc]
  rfl

theorem collectFunc_cf (mn fs : String) (la : List String) (st : Pass1State)
    (stmt : Stmt) (hwf : stmtWF stmt = true) (h : Pass1CF st) :
    Pass1CF (collectFunc mn fs la st stmt) := by
  cases stmt with
  | funcDef fn =>
    simp only [collectFunc]
    by_cases hp : isPublic fn.name la = true
    · rw [if_pos hp]
      have hid : identOk fn.name = true := hwf
      refine ⟨?_, h.exp_names, ?_⟩
      · intro r hr
        rcases List.mem_append.mp hr with hr | hr
        · exact h.rec_name r hr
        · rcases List.mem_singleton.mp hr with rfl
          exact identOk_colon hid
      · intro k hk
        rw [dictKeys_insert] at hk
        by_cases hmem : (mn ++ "." ++ fn.name) ∈ dictKeys st.defs_by_full
        · rw [if_pos hmem] at hk
          exact h.defs_leaf k hk
        · rw [if_neg hmem] at hk
          rcases List.mem_append.mp hk with hk | hk
          · exact h.defs_leaf k hk
          · rcases List.mem_singleton.mp hk with rfl
            rw [dotJoin_data, lastSegChars_append_dot (identOk_dot hid)]
            exact identOk_colon hid
    · rw [if_neg hp]
      exact h
  | assign targets value => exact h
  | importFrom mod level names => exact h
  | importPlain names => exact h
  | otherStmt => exact h

theorem collectInitStmt_cf (mn : String) (st : Pass1State) (stmt : Stmt)
    (hwf : stmtWF stmt = true) (h : Pass1CF st) :
    Pass1CF (collectInitStmt mn st stmt) := by
  cases stmt with
  | importFrom mod level names =>
    have hnames : ∀ a ∈ names, importAliasOk a = true := List.all_eq_true.mp hwf
    simp only [collectInitStmt]
    by_cases hb : mod = none ∧ level > 0
    · rw [if_pos hb]
      refine foldl_preserve _ _ names st (fun st1 a _ h1 => ?_) h
      exact ⟨h1.rec_name, h1.exp_names, h1.defs_leaf⟩
    · rw [if_neg hb]
      refine foldl_preserve _ _ names st (fun st1 a ha h1 => ?_) h
      unfold initExportStep
      by_cases hstar : a.name = "*"
      · rw [if_pos hstar]
        exact h1
      · rw [if_neg hstar]
        refine ⟨h1.rec_name, ?_, h1.defs_leaf⟩
        intro pa hpa
        rcases mem_dictInsert hpa with hpa | hpa
        · cases hpa
          intro q hq
          rcases mem_dictInsert hq with hq | hq
          · cases hq
            exact identOk_colon (importAliasOk_bound (hnames a ha))
          · cases hlook : dictLookup st1.exports_by_package mn with
            | none => rw [hlook] at hq; simp at hq
            | some inner =>
              rw [hlook] at hq
              exact h1.exp_names (mn, inner) (dictLookup_mem hlook) q hq
        · exact h1.exp_names pa hpa
  | funcDef fn => exact h
  | assign targets value => exact h
  | importPlain names => exact h
  | otherStmt => exact h

theorem processFile_cf (st : Pass1State) (f : PyFile) (hwf : fileWF f = true)
    (h : Pass1CF st) : Pass1CF (processFile st f) := by
  have hc : Pass1CF { st with files_scanned := st.files_scanned + 1 } :=
    ⟨h.rec_name, h.exp_names, h.defs_leaf⟩
  cases hp : f.parse with
  | none =>
    simp only [processFile, hp]
    exact ⟨hc.rec_name, hc.exp_names, hc.defs_leaf⟩
  | some body =>
    simp only [processFile, hp]
    have hbody : ∀ stmt ∈ body, stmtWF stmt = true := by
      have : fileWF f = body.all stmtWF := by
        unfold fileWF
        rw [hp]
      exact List.all_eq_true.mp (this ▸ hwf)
    have h1 : Pass1CF (body.foldl
        (collectFunc (moduleNameFor f.path) (String.intercalate "/" f.path) (extractLiteralAll body))
        { st with files_scanned := st.files_scanned + 1 }) :=
      foldl_preserve _ _ body _ (fun st1 stmt hm h1 => collectFunc_cf _ _ _ _ _ (hbody stmt hm) h1) hc
    by_cases hinit : f.path.getLastD "" = "__init__.py"
    · rw [if_pos hinit]
      by_cases hall : extractLiteralAll body ≠ []
      · rw [if_pos hall]
        refine foldl_preserve _ _ body _
          (fun st1 stmt hm h2 => collectInitStmt_cf _ _ _ (hbody stmt hm) h2) ?_
        exact ⟨h1.rec_name, h1.exp_names, h1.defs_leaf⟩
      · rw [if_neg hall]
        exact foldl_preserve _ _ body _
          (fun st1 stmt hm h2 => collectInitStmt_cf _ _ _ (hbody stmt hm) h2) h1
    · rw [if_neg hinit]
      exact h1

theorem pass1_cf (files : List PyFile) (hwf : treeWF files = true) :
    Pass1CF (pass1 files) := by
  unfold pass1
  have hfiles : ∀ f ∈ files, fileWF f = true := List.all_eq_true.mp hwf
  refine foldl_preserve _ _ files initialState
    (fun st f hm h => processFile_cf st f (hfiles f hm) h) ?_
  exact ⟨by simp [initialState], by simp [initialState], by simp [initialState, dictKeys]⟩

/-! The resolved export mapping of any package has distinct, colon-free
export names. -/

theorem heurCandidates_subset {st : Pass1State} {pkg full : String}
    (h : full ∈ heurCandidates st pkg) : full ∈ dictKeys st.defs_by_full := by
  unfold heurCandidates at h
  by_cases hc : (dictKeys st.defs_by_full).filter
      (fun full => chStartsWith full (pkg ++ ".")) = []
  · rw [if_pos hc] at h
    exact List.mem_of_mem_filter h
  · rw [if_neg hc] at h
    exact List.mem_of_mem_filter h

theorem mapWF (st : Pass1State) (hinv : Pass1Inv st) (hcf : Pass1CF st) : MapWF st := by
  intro pkg
  unfold publicExportsForPackage
  by_cases hm : (dictLookup st.exports_by_package pkg).getD [] ≠ []
  · rw [if_pos hm]
    cases hlook : dictLookup st.exports_by_package pkg with
    | none => rw [hlook] at hm; simp at hm
    | some inner =>
      have hmem := dictLookup_mem hlook
      constructor
      · simpa using hinv.exp_keys (pkg, inner) hmem
      · intro p hp
        exact hcf.exp_names (pkg, inner) hmem p (by simpa using hp)
  · rw [if_neg hm]
    have hstep : ∀ (acc : List (String × String)) (full : String),
        full ∈ heurCandidates st pkg →
        ((acc.map (fun p => p.1)).Nodup ∧ ∀ p ∈ acc, ':' ∉ (p.1 : String).data) →
        (((bestStep (heurPreferred st pkg) acc full).map (fun p => p.1)).Nodup ∧
          ∀ p ∈ bestStep (heurPreferred st pkg) acc full, ':' ∉ (p.1 : String).data) := by
      intro acc full hfull hacc
      have hleaf : ':' ∉ (String.mk (lastSegChars full.data)).data := by
        have := hcf.defs_leaf full (heurCandidates_subset hfull)
        simpa using this
      unfold bestStep
      by_cases hpref : heurPreferred st pkg ≠ [] ∧
          ¬ (heurPreferred st pkg).contains (String.mk (lastSegChars full.data))
      · rw [if_pos hpref]
        exact hacc
      · rw [if_neg hpref]
        have hins : ((dictInsert acc (String.mk (lastSegChars full.data)) full).map
              (fun p => p.1)).Nodup ∧
            ∀ p ∈ dictInsert acc (String.mk (lastSegChars full.data)) full,
              ':' ∉ (p.1 : String).data := by
          constructor
          · exact dictKeys_insert_nodup _ _ hacc.1
          · intro p hp
            rcases mem_dictInsert hp with hp | hp
            · cases hp
              exact hleaf
            · exact hacc.2 p hp
        split
        · exact hins
        · split
          · exact hins
          · exact hacc
    exact foldl_preserve _ _ (heurCandidates st pkg) []
      (fun acc full hm2 hacc => hstep acc full hm2 hacc) (by simp)

/-! Pass 2 as a fold over emission triples, and the characterization of
what it appends. -/

theorem emitFold_append (defs : List (String × ToolRecord)) (e : EmitState)
    (ts1 ts2 : List (String × String × String)) :
    emitFold defs e (ts1 ++ ts2) = emitFold defs (emitFold defs e ts1) ts2 :=
  List.foldl_append _ _ _ _

theorem innerFold_eq (defs : List (String × ToolRecord)) (pkg : String)
    (m : List (String × String)) (e : EmitState) :
    m.foldl (fun e p => emitPublic defs e pkg p.1 p.2) e = emitFold defs e (pkgTriples pkg m) := by
  unfold emitFold pkgTriples
  rw [List.foldl_map]
  rfl

theorem directFold_eq (st : Pass1State) (order : List String) (e : EmitState) :
    order.foldl (fun e pkg =>
        (publicExportsForPackage st pkg).foldl
          (fun e p => emitPublic st.defs_by_full e pkg p.1 p.2) e) e =
      emitFold st.defs_by_full e (directTriples st order) := by
  unfold directTriples
  rw [show (emitFold st.defs_by_full e
        (order.flatMap (fun pkg => pkgTriples pkg (publicExportsForPackage st pkg)))) =
      ((order.flatMap (fun pkg => pkgTriples pkg (publicExportsForPackage st pkg))).foldl
        (emitStep st.defs_by_full) e) from rfl]
  rw [← foldl_flatMap]
  congr 1
  funext e1 pkg
  rw [innerFold_eq]
  rfl

theorem aliasFold_eq (st : Pass1State) (e : EmitState) :
    st.aliases_by_package.foldl (fun e pa =>
        pa.2.foldl (fun e ab =>
          (publicExportsForPackage st (pa.1 ++ "." ++ ab.2)).foldl
            (fun e p => emitPublic st.defs_by_full e (pa.1 ++ "." ++ ab.1) p.1 p.2) e) e) e =
      emitFold st.defs_by_full e (aliasTriples st) := by
  unfold aliasTriples
  rw [show (emitFold st.defs_by_full e (st.aliases_by_package.flatMap (fun pa =>
        pa.2.flatMap (fun ab =>
          pkgTriples (pa.1 ++ "." ++ ab.1) (publicExportsForPackage st (pa.1 ++ "." ++ ab.2)))))) =
      ((st.aliases_by_package.flatMap (fun pa =>
        pa.2.flatMap (fun ab =>
          pkgTriples (pa.1 ++ "." ++ ab.1)
            (publicExportsForPackage st (pa.1 ++ "." ++ ab.2))))).foldl
        (emitStep st.defs_by_full) e) from rfl]
  rw [← foldl_flatMap]
  congr 1
  funext e1 pa
  rw [← foldl_flatMap]
  congr 1
  funext e2 ab
  rw [innerFold_eq]
  rfl

theorem emitPublic_of_none (defs : List (String × ToolRecord)) (e : EmitState)
    (pm en origin : String) (h : dictLookup defs origin = none) :
    emitPublic defs e pm en origin = e := by
  unfold emitPublic
  rw [h]

theorem emitPublic_of_seen (defs : List (String × ToolRecord)) (e : EmitState)
    (pm en origin : String) (src : ToolRecord) (h : dictLookup defs origin = some src)
    (hseen : pm ++ ":" ++ en ∈ e.seen_ids) :
    emitPublic defs e pm en origin = e := by
  unfold emitPublic
  simp only [h]
  rw [if_pos hseen]

theorem emitPublic_of_fresh (defs : List (String × ToolRecord)) (e : EmitState)
    (pm en origin : String) (src : ToolRecord) (h : dictLookup defs origin = some src)
    (hseen : pm ++ ":" ++ en ∉ e.seen_ids) :
    emitPublic defs e pm en origin =
      ⟨e.results ++ [mkEmitRecord pm en src], e.seen_ids ++ [pm ++ ":" ++ en]⟩ := by
  unfold emitPublic
  simp only [h]
  rw [if_neg hseen]

theorem emitFold_eq (defs : List (String × ToolRecord)) :
    ∀ (ts : List (String × String × String)) (e : EmitState),
      emitFold defs e ts =
        ⟨e.results ++ emitNewList defs ts e.seen_ids,
         e.seen_ids ++ (emitNewList defs ts e.seen_ids).map (fun r => r.id)⟩
  | [], e => by
    simp only [emitFold, List.foldl_nil, emitNewList, List.append_nil, List.map_nil]
  | t :: ts, e => by
    have hcons : emitFold defs e (t :: ts) = emitFold defs (emitStep defs e t) ts := rfl
    rw [hcons]
    have hstep : emitStep defs e t = emitPublic defs e t.1 t.2.1 t.2.2 := rfl
    rw [hstep]
    cases hlook : dictLookup defs t.2.2 with
    | none =>
      rw [emitPublic_of_none defs e t.1 t.2.1 t.2.2 hlook]
      rw [emitFold_eq defs ts e]
      have hnew : emitNewList defs (t :: ts) e.seen_ids = emitNewList defs ts e.seen_ids := by
        simp only [emitNewList, hlook]
      rw [hnew]
    | some src =>
      by_cases hseen : t.1 ++ ":" ++ t.2.1 ∈ e.seen_ids
      · rw [emitPublic_of_seen defs e t.1 t.2.1 t.2.2 src hlook hseen]
        rw [emitFold_eq defs ts e]
        have hnew : emitNewList defs (t :: ts) e.seen_ids = emitNewList defs ts e.seen_ids := by
          simp only [emitNewList, hlook]
          rw [if_pos (show mkId t.1 t.2.1 ∈ e.seen_ids from hseen)]
        rw [hnew]
      · rw [emitPublic_of_fresh defs e t.1 t.2.1 t.2.2 src hlook hseen]
        rw [emitFold_eq defs ts ⟨e.results ++ [mkEmitRecord t.1 t.2.1 src],
          e.seen_ids ++ [t.1 ++ ":" ++ t.2.1]⟩]
        have hnew : emitNewList defs (t :: ts) e.seen_ids =
            mkEmitRecord t.1 t.2.1 src ::
              emitNewList defs ts (e.seen_ids ++ [mkId t.1 t.2.1]) := by
          simp only [emitNewList, hlook]
          rw [if_neg (show ¬ mkId t.1 t.2.1 ∈ e.seen_ids from hseen)]
        rw [hnew]
        have hid : (mkEmitRecord t.1 t.2.1 src).id = mkId t.1 t.2.1 := rfl
        refine congrArg₂ EmitState.mk ?_ ?_
        · show e.results ++ [mkEmitRecord t.1 t.2.1 src] ++ _ = _
          simp [mkId]
        · show e.seen_ids ++ [t.1 ++ ":" ++ t.2.1] ++ _ = _
          simp [hid, mkId]

theorem extractWith_eq (files : List PyFile) (order : List String) :
    extractWith files order =
      ((pass1 files).results ++
         emitNewList (pass1 files).defs_by_full
           (directTriples (pass1 files) order ++ aliasTriples (pass1 files))
           (pass1 files).seen_ids,
       (pass1 files).files_scanned, (pass1 files).files_skipped) := by
  simp only [extractWith]
  rw [directFold_eq, aliasFold_eq, ← emitFold_append, emitFold_eq]

theorem emitNewList_fresh (defs : List (String × ToolRecord)) :
    ∀ (ts : List (String × String × String)) (seen : List String),
      ((emitNewList defs ts seen).map (fun r => r.id)).Nodup ∧
        ∀ i ∈ (emitNewList defs ts seen).map (fun r => r.id), i ∉ seen
  | [], seen => by simp [emitNewList]
  | t :: ts, seen => by
    cases hlook : dictLookup defs t.2.2 with
    | none =>
      simp only [emitNewList, hlook]
      exact emitNewList_fresh defs ts seen
    | some src =>
      by_cases hseen : mkId t.1 t.2.1 ∈ seen
      · simp only [emitNewList, hlook]
        rw [if_pos hseen]
        exact emitNewList_fresh defs ts seen
      · simp only [emitNewList, hlook]
        rw [if_neg hseen]
        have ih := emitNewList_fresh defs ts (seen ++ [mkId t.1 t.2.1])
        have hid : (mkEmitRecord t.1 t.2.1 src).id = mkId t.1 t.2.1 := rfl
        constructor
        · rw [List.map_cons, List.nodup_cons]
          constructor
          · intro hmem
            have := ih.2 _ hmem
            exact this (by simp [hid])
          · exact ih.1
        · intro i hi
          rw [List.map_cons] at hi
          rcases List.mem_cons.mp hi with hi | hi
          · rw [hi, hid]
            exact hseen
          · intro hmem
            exact ih.2 i hi (List.mem_append_left _ hmem)

/-- C1 (amended): record ids are deduplicated first-wins for all pass-2
emissions — every export or alias record appended in pass 2 has an id
distinct from all other pass-2 ids and from every pass-1 definition
record id (all of which are registered in the seen set) — but pass-1
definition records themselves are appended unconditionally, so duplicate
ids can occur in an output run, only among pass-1 definition records. -/
theorem C1_pass2_dedup (files : List PyFile) :
    ∃ Q, (extractTools files).1 = (pass1 files).results ++ Q ∧
      ((Q.map (fun r => r.id)).Nodup) ∧
      ∀ i ∈ Q.map (fun r => r.id), i ∉ (pass1 files).results.map (fun r => r.id) := by
  refine ⟨emitNewList (pass1 files).defs_by_full
    (directTriples (pass1 files) (directPkgs (pass1 files)) ++ aliasTriples (pass1 files))
    (pass1 files).seen_ids, ?_, ?_, ?_⟩
  · show (extractWith files (directPkgs (pass1 files))).1 = _
    rw [extractWith_eq]
  · exact (emitNewList_fresh _ _ _).1
  · intro i hi
    have h2 := (emitNewList_fresh (pass1 files).defs_by_full
      (directTriples (pass1 files) (directPkgs (pass1 files)) ++ aliasTriples (pass1 files))
      (pass1 files).seen_ids).2 i hi
    rwa [(pass1_inv files).seen_eq] at h2

/-! Import-edge collection (claim C4). -/

theorem dictLookup2_nestedInsert_self {α : Type} (d : List (String × List (String × α)))
    (k1 k2 : String) (v : α) : dictLookup2 (nestedInsert d k1 k2 v) k1 k2 = some v := by
  unfold dictLookup2 nestedInsert
  rw [dictLookup_insert_self]
  show dictLookup (dictInsert ((dictLookup d k1).getD []) k2 v) k2 = some v
  exact dictLookup_insert_self _ _ _

theorem dictLookup2_nestedInsert_ne {α : Type} (d : List (String × List (String × α)))
    (k1 k2 b : String) (v : α) (h : k2 ≠ b) :
    dictLookup2 (nestedInsert d k1 k2 v) k1 b = dictLookup2 d k1 b := by
  unfold dictLookup2 nestedInsert
  rw [dictLookup_insert_self]
  show dictLookup (dictInsert ((dictLookup d k1).getD []) k2 v) b = _
  exact dictLookup_insert_ne _ _ _ _ h

theorem collectFunc_exports (mn fs : String) (la : List String) (st : Pass1State)
    (stmt : Stmt) : (collectFunc mn fs la st stmt).exports_by_package = st.exports_by_package := by
  cases stmt with
  | funcDef fn =>
    simp only [collectFunc]
    split
    · rfl
    · rfl
  | assign targets value => rfl
  | importFrom mod level names => rfl
  | importPlain names => rfl
  | otherStmt => rfl

theorem initExportStep_preserve (mn absMod : String) (st : Pass1State) (a : ImportAlias)
    (b : String) (h : a.name = "*" ∨ pyOr a.asname a.name ≠ b) :
    dictLookup2 (initExportStep mn absMod st a).exports_by_package mn b =
      dictLookup2 st.exports_by_package mn b := by
  unfold initExportStep
  by_cases hstar : a.name = "*"
  · rw [if_pos hstar]
  · rw [if_neg hstar]
    have hne : pyOr a.asname a.name ≠ b := by
      rcases h with h | h
      · exact absurd h hstar
      · exact h
    exact dictLookup2_nestedInsert_ne _ _ _ _ _ hne

theorem collectInitStmt_preserve (mn : String) (st : Pass1State) (stmt : Stmt)
    (b : String) (h : bindsExport b stmt = false) :
    dictLookup2 (collectInitStmt mn st stmt).exports_by_package mn b =
      dictLookup2 st.exports_by_package mn b := by
  cases stmt with
  | importFrom mod level names =>
    simp only [collectInitStmt]
    by_cases hb : mod = none ∧ level > 0
    · rw [if_pos hb]
      refine foldl_preserve
        (fun (st1 : Pass1State) => dictLookup2 st1.exports_by_package mn b =
          dictLookup2 st.exports_by_package mn b) _ names st (fun st1 a _ h1 => ?_) rfl
      show dictLookup2 (initAliasStep mn st1 a).exports_by_package mn b = _
      exact h1
    · rw [if_neg hb]
      have hfalse : names.any (fun a => a.name != "*" && pyOr a.asname a.name == b) = false := by
        have := h
        simp only [bindsExport] at this
        rwa [if_neg hb] at this
      have hany : ∀ a ∈ names, ¬ ((a.name != "*" && pyOr a.asname a.name == b) = true) := by
        intro a ha hcontra
        have htrue : names.any (fun a => a.name != "*" && pyOr a.asname a.name == b) = true :=
          List.any_eq_true.mpr ⟨a, ha, hcontra⟩
        rw [hfalse] at htrue
        exact Bool.false_ne_true htrue
      refine foldl_preserve
        (fun (st1 : Pass1State) => dictLookup2 st1.exports_by_package mn b =
          dictLookup2 st.exports_by_package mn b) _ names st (fun st1 a ha h1 => ?_) rfl
      have hcase : a.name = "*" ∨ pyOr a.asname a.name ≠ b := by
        by_cases hstar2 : a.name = "*"
        · exact Or.inl hstar2
        · refine Or.inr (fun heq => hany a ha ?_)
          rw [Bool.and_eq_true]
          constructor
          · simpa using hstar2
          · simpa using heq
      show dictLookup2 (initExportStep mn (resolveRelativeModule mn mod level) st1 a).exports_by_package mn b = _
      rw [initExportStep_preserve mn _ st1 a b hcase]
      exact h1
  | funcDef fn => rfl
  | assign targets value => rfl
  | importPlain names => rfl
  | otherStmt => rfl

theorem initExport_fold_set (mn absMod b : String) (a : ImportAlias)
    (ns2 : List ImportAlias) (st : Pass1State)
    (hstar : a.name ≠ "*") (hb : pyOr a.asname a.name = b)
    (hns2 : ∀ a2 ∈ ns2, a2.name = "*" ∨ pyOr a2.asname a2.name ≠ b) :
    dictLookup2 ((a :: ns2).foldl (initExportStep mn absMod) st).exports_by_package mn b =
      some (absMod ++ "." ++ a.name) := by
  rw [List.foldl_cons]
  have hset : dictLookup2 (initExportStep mn absMod st a).exports_by_package mn b =
      some (absMod ++ "." ++ a.name) := by
    unfold initExportStep
    rw [if_neg hstar]
    rw [← hb]
    exact dictLookup2_nestedInsert_self _ _ _ _
  refine foldl_preserve
    (fun (st1 : Pass1State) => dictLookup2 st1.exports_by_package mn b = some (absMod ++ "." ++ a.name))
    _ ns2 _ (fun st1 a2 ha2 h1 => ?_) hset
  show dictLookup2 (initExportStep mn absMod st1 a2).exports_by_package mn b = _
  rw [initExportStep_preserve mn absMod st1 a2 b (hns2 a2 ha2)]
  exact h1

theorem initFold_binding (mn : String) (pre post : List Stmt) (mod : Option String)
    (L : Nat) (names ns1 ns2 : List ImportAlias) (a : ImportAlias) (b : String)
    (hmod : ¬ (mod = none ∧ L > 0)) (hnames : names = ns1 ++ a :: ns2)
    (hstar : a.name ≠ "*") (hb : pyOr a.asname a.name = b)
    (hns2 : ∀ a2 ∈ ns2, a2.name = "*" ∨ pyOr a2.asname a2.name ≠ b)
    (hpost : ∀ stmt ∈ post, bindsExport b stmt = false) (st0 : Pass1State) :
    dictLookup2 ((pre ++ (Stmt.importFrom mod L names) :: post).foldl
        (collectInitStmt mn) st0).exports_by_package mn b =
      some (resolveRelativeModule mn mod L ++ "." ++ a.name) := by
  rw [List.foldl_append, List.foldl_cons]
  have hstmt : dictLookup2 (collectInitStmt mn (pre.foldl (collectInitStmt mn) st0)
      (Stmt.importFrom mod L names)).exports_by_package mn b =
      some (resolveRelativeModule mn mod L ++ "." ++ a.name) := by
    simp only [collectInitStmt]
    rw [if_neg hmod]
    rw [hnames, List.foldl_append]
    exact initExport_fold_set _ _ b a ns2 _ hstar hb hns2
  refine foldl_preserve
    (fun (st1 : Pass1State) => dictLookup2 st1.exports_by_package mn b =
      some (resolveRelativeModule mn mod L ++ "." ++ a.name))
    _ post _ (fun st1 stmt hm h1 => ?_) hstmt
  show dictLookup2 (collectInitStmt mn st1 stmt).exports_by_package mn b = _
  rw [collectInitStmt_preserve _ _ _ _ (hpost stmt hm)]
  exact h1

/-- C4 (amended): import-edge bindings are collected only from package
init files, and only from from-import statements: processing an init file
whose body contains a from-import that is not a bare relative import
records, for each non-star item, the binding boundName ↦ absMod.name in
the package's accumulated export map (where absMod resolves the
statement's module against the current package), the last such binding of
a name winning; bare relative from-imports record alias bindings instead,
and plain import statements are ignored entirely and bind nothing. -/
theorem C4_import_edges (st : Pass1State) (f : PyFile) (body : List Stmt)
    (pre post : List Stmt) (mod : Option String) (L : Nat) (names : List ImportAlias)
    (ns1 ns2 : List ImportAlias) (a : ImportAlias) (b : String)
    (hparse : f.parse = some body)
    (hinit : f.path.getLastD "" = "__init__.py")
    (hbody : body = pre ++ (Stmt.importFrom mod L names) :: post)
    (hmod : ¬ (mod = none ∧ L > 0))
    (hnames : names = ns1 ++ a :: ns2)
    (hstar : a.name ≠ "*")
    (hb : pyOr a.asname a.name = b)
    (hns2 : ∀ a2 ∈ ns2, a2.name = "*" ∨ pyOr a2.asname a2.name ≠ b)
    (hpost : ∀ stmt ∈ post, bindsExport b stmt = false) :
    dictLookup2 (processFile st f).exports_by_package (moduleNameFor f.path) b =
      some (resolveRelativeModule (moduleNameFor f.path) mod L ++ "." ++ a.name) ∧
    ∀ (st2 : Pass1State) (names2 : List ImportAlias),
      collectInitStmt (moduleNameFor f.path) st2 (Stmt.importPlain names2) = st2 := by
  constructor
  · simp only [processFile, hparse]
    rw [if_pos hinit]
    rw [hbody]
    exact initFold_binding (moduleNameFor f.path) pre post mod L names ns1 ns2 a b
      hmod hnames hstar hb hns2 hpost _
  · intro st2 names2
    rfl

/-- C4 witness: processing the init file of package p containing
`from .sub import helper as pub` records the binding
pub ↦ p.sub.helper in the export map of p. -/
theorem C4_witness :
    dictLookup2 (processFile initialState
        ⟨["p", "__init__.py"], some [.importFrom (some "sub") 1 [⟨"helper", some "pub"⟩]]⟩).exports_by_package
      "p" "pub" = some ("p.sub" ++ "." ++ "helper") := by
  have h := C4_import_edges initialState
    ⟨["p", "__init__.py"], some [.importFrom (some "sub") 1 [⟨"helper", some "pub"⟩]]⟩
    [.importFrom (some "sub") 1 [⟨"helper", some "pub"⟩]]
    [] [] (some "sub") 1 [⟨"helper", some "pub"⟩] [] [] ⟨"helper", some "pub"⟩ "pub"
    rfl (by decide) rfl (by decide) rfl (by decide) (by decide)
    (by intro a2 ha2; simp at ha2) (by intro stmt hm; simp at hm)
  have h1 := h.1
  have hmn : moduleNameFor ["p", "__init__.py"] = "p" := by decide
  rw [hmn] at h1
  have habs : resolveRelativeModule "p" (some "sub") 1 = "p.sub" := by decide
  rw [habs] at h1
  exact h1

/-! Heuristic export inference (claim C7). -/

theorem bestStep_skip (preferred : List String) (best : List (String × String))
    (full : String) (h : heurKeep preferred full = false) :
    bestStep preferred best full = best := by
  unfold heurKeep at h
  unfold bestStep
  by_cases hc : preferred ≠ [] ∧ ¬ preferred.contains (String.mk (lastSegChars full.data))
  · rw [if_pos hc]
  · rw [if_neg hc] at h
    exact absurd h (by simp)

theorem bestStep_keep (preferred : List String) (best : List (String × String))
    (full : String) (h : heurKeep preferred full = true) :
    bestStep preferred best full =
      (match dictLookup best (String.mk (lastSegChars full.data)) with
       | none => dictInsert best (String.mk (lastSegChars full.data)) full
       | some prev =>
         if score full (String.mk (lastSegChars full.data)) >
             score prev (String.mk (lastSegChars full.data)) then
           dictInsert best (String.mk (lastSegChars full.data)) full
         else best) := by
  unfold heurKeep at h
  unfold bestStep
  by_cases hc : preferred ≠ [] ∧ ¬ preferred.contains (String.mk (lastSegChars full.data))
  · rw [if_pos hc] at h
    exact absurd h (by simp)
  · rw [if_neg hc]

theorem firstBestAux_cons_match (name full : String) (cur : Option String)
    (l : List String) (hname : String.mk (lastSegChars full.data) = name) :
    firstBestAux name cur (full :: l) =
      (match cur with
       | none => firstBestAux name (some full) l
       | some prev =>
         if score full name > score prev name then firstBestAux name (some full) l
         else firstBestAux name (some prev) l) := by
  cases cur with
  | none =>
    simp only [firstBestAux]
    rw [if_pos hname]
  | some prev =>
    simp only [firstBestAux]
    rw [if_pos hname]

theorem firstBestAux_cons_skip (name full : String) (cur : Option String)
    (l : List String) (hname : ¬ (String.mk (lastSegChars full.data) = name)) :
    firstBestAux name cur (full :: l) = firstBestAux name cur l := by
  cases cur with
  | none =>
    simp only [firstBestAux]
    rw [if_neg hname]
  | some prev =>
    simp only [firstBestAux]
    rw [if_neg hname]

theorem firstBestAux_cons_match_none (name full : String) (l : List String)
    (hname : String.mk (lastSegChars full.data) = name) :
    firstBestAux name none (full :: l) = firstBestAux name (some full) l := by
  rw [firstBestAux_cons_match name full none l hname]

theorem firstBestAux_cons_match_some (name full prev : String) (l : List String)
    (hname : String.mk (lastSegChars full.data) = name) :
    firstBestAux name (some prev) (full :: l) =
      if score full name > score prev name then firstBestAux name (some full) l
      else firstBestAux name (some prev) l := by
  rw [firstBestAux_cons_match name full (some prev) l hname]

theorem heurFold_lookup (preferred : List String) :
    ∀ (l : List String) (acc : List (String × String)) (name : String),
      dictLookup (l.foldl (bestStep preferred) acc) name =
        firstBestAux name (dictLookup acc name) (l.filter (heurKeep preferred))
  | [], acc, name => by simp [firstBestAux]
  | full :: rest, acc, name => by
    rw [List.foldl_cons]
    cases hkeep : heurKeep preferred full with
    | false =>
      rw [bestStep_skip preferred acc full hkeep]
      rw [List.filter_cons_of_neg (by simp [hkeep])]
      exact heurFold_lookup preferred rest acc name
    | true =>
      rw [bestStep_keep preferred acc full hkeep]
      rw [List.filter_cons_of_pos hkeep]
      by_cases hname : String.mk (lastSegChars full.data) = name
      · rw [hname]
        rw [firstBestAux_cons_match name full (dictLookup acc name)
          (rest.filter (heurKeep preferred)) hname]
        cases hcur : dictLookup acc name with
        | none =>
          show dictLookup (List.foldl (bestStep preferred) (dictInsert acc name full) rest) name = _
          rw [heurFold_lookup preferred rest, dictLookup_insert_self]
        | some prev =>
          by_cases hsc : score full name > score prev name
          · show dictLookup (List.foldl (bestStep preferred)
                (if score full name > score prev name then dictInsert acc name full else acc)
                rest) name = _
            rw [if_pos hsc, heurFold_lookup preferred rest, dictLookup_insert_self]
            show _ = (if score full name > score prev name
              then firstBestAux name (some full) (rest.filter (heurKeep preferred))
              else firstBestAux name (some prev) (rest.filter (heurKeep preferred)))
            rw [if_pos hsc]
          · show dictLookup (List.foldl (bestStep preferred)
                (if score full name > score prev name then dictInsert acc name full else acc)
                rest) name = _
            rw [if_neg hsc, heurFold_lookup preferred rest, hcur]
            show _ = (if score full name > score prev name
              then firstBestAux name (some full) (rest.filter (heurKeep preferred))
              else firstBestAux name (some prev) (rest.filter (heurKeep preferred)))
            rw [if_neg hsc]
      · rw [firstBestAux_cons_skip name full (dictLookup acc name)
          (rest.filter (heurKeep preferred)) hname]
        rw [heurFold_lookup preferred rest]
        congr 1
        cases hcur : dictLookup acc (String.mk (lastSegChars full.data)) with
        | none =>
          show dictLookup (dictInsert acc (String.mk (lastSegChars full.data)) full) name = _
          exact dictLookup_insert_ne _ _ _ _ hname
        | some prev =>
          show dictLookup (if score full (String.mk (lastSegChars full.data)) >
              score prev (String.mk (lastSegChars full.data)) then
              dictInsert acc (String.mk (lastSegChars full.data)) full else acc) name = _
          by_cases hsc : score full (String.mk (lastSegChars full.data)) >
              score prev (String.mk (lastSegChars full.data))
          · rw [if_pos hsc]
            exact dictLookup_insert_ne _ _ _ _ hname
          · rw [if_neg hsc]

theorem firstBestAux_some_isSome (name prev : String) :
    ∀ l : List String, (firstBestAux name (some prev) l).isSome
  | [] => rfl
  | full :: rest => by
    by_cases hname : String.mk (lastSegChars full.data) = name
    · rw [firstBestAux_cons_match_some name full prev rest hname]
      by_cases hsc : score full name > score prev name
      · rw [if_pos hsc]
        exact firstBestAux_some_isSome name full rest
      · rw [if_neg hsc]
        exact firstBestAux_some_isSome name prev rest
    · rw [firstBestAux_cons_skip name full (some prev) rest hname]
      exact firstBestAux_some_isSome name prev rest

theorem firstBestAux_isSome (name : String) :
    ∀ (l : List String) (cur : Option String),
      (∃ g ∈ l, String.mk (lastSegChars g.data) = name) →
      (firstBestAux name cur l).isSome
  | [], cur, h => by simp at h
  | full :: rest, cur, h => by
    by_cases hname : String.mk (lastSegChars full.data) = name
    · cases cur with
      | none =>
        rw [firstBestAux_cons_match_none name full rest hname]
        exact firstBestAux_some_isSome name full rest
      | some prev =>
        rw [firstBestAux_cons_match_some name full prev rest hname]
        by_cases hsc : score full name > score prev name
        · rw [if_pos hsc]
          exact firstBestAux_some_isSome name full rest
        · rw [if_neg hsc]
          exact firstBestAux_some_isSome name prev rest
    · rw [firstBestAux_cons_skip name full cur rest hname]
      have hrest : ∃ g ∈ rest, String.mk (lastSegChars g.data) = name := by
        rcases h with ⟨g, hg, hgname⟩
        rcases List.mem_cons.mp hg with rfl | hg
        · exact absurd hgname hname
        · exact ⟨g, hg, hgname⟩
      cases cur with
      | none => exact firstBestAux_isSome name rest none hrest
      | some prev => exact firstBestAux_some_isSome name prev rest

theorem firstBestAux_some_spec (name : String) :
    ∀ (l : List String) (prev full : String),
      firstBestAux name (some prev) l = some full →
      (full = prev ∧ ∀ g ∈ l, String.mk (lastSegChars g.data) = name →
        score g name ≤ score prev name)
      ∨ (String.mk (lastSegChars full.data) = name ∧ score prev name < score full name ∧
         ∃ l1 l2, l = l1 ++ full :: l2 ∧
           (∀ g ∈ l1, String.mk (lastSegChars g.data) = name → score g name < score full name) ∧
           (∀ g ∈ l2, String.mk (lastSegChars g.data) = name → score g name ≤ score full name))
  | [], prev, full => by
    intro h
    simp only [firstBestAux] at h
    cases h
    exact Or.inl ⟨rfl, by simp⟩
  | full0 :: rest, prev, full => by
    intro h
    simp only [firstBestAux] at h
    by_cases hname : String.mk (lastSegChars full0.data) = name
    · rw [if_pos hname] at h
      by_cases hsc : score full0 name > score prev name
      · rw [if_pos hsc] at h
        rcases firstBestAux_some_spec name rest full0 full h with ⟨rfl, hrest⟩ | hB
        · refine Or.inr ⟨hname, hsc, [], rest, rfl, by simp, ?_⟩
          intro g hg hgname
          exact hrest g hg hgname
        · obtain ⟨hmatch, hlt, l1, l2, hdec, hbefore, hafter⟩ := hB
          refine Or.inr ⟨hmatch, Nat.lt_trans hsc hlt, full0 :: l1, l2, by simp [hdec], ?_, hafter⟩
          intro g hg hgname
          rcases List.mem_cons.mp hg with rfl | hg
          · exact hlt
          · exact hbefore g hg hgname
      · rw [if_neg hsc] at h
        have hle0 : score full0 name ≤ score prev name := Nat.le_of_not_lt hsc
        rcases firstBestAux_some_spec name rest prev full h with ⟨rfl, hrest⟩ | hB
        · refine Or.inl ⟨rfl, ?_⟩
          intro g hg hgname
          rcases List.mem_cons.mp hg with rfl | hg
          · exact hle0
          · exact hrest g hg hgname
        · obtain ⟨hmatch, hlt, l1, l2, hdec, hbefore, hafter⟩ := hB
          refine Or.inr ⟨hmatch, hlt, full0 :: l1, l2, by simp [hdec], ?_, hafter⟩
          intro g hg hgname
          rcases List.mem_cons.mp hg with rfl | hg
          · exact Nat.lt_of_le_of_lt hle0 hlt
          · exact hbefore g hg hgname
    · rw [if_neg hname] at h
      rcases firstBestAux_some_spec name rest prev full h with ⟨rfl, hrest⟩ | hB
      · refine Or.inl ⟨rfl, ?_⟩
        intro g hg hgname
        rcases List.mem_cons.mp hg with rfl | hg
        · exact absurd hgname hname
        · exact hrest g hg hgname
      · obtain ⟨hmatch, hlt, l1, l2, hdec, hbefore, hafter⟩ := hB
        refine Or.inr ⟨hmatch, hlt, full0 :: l1, l2, by simp [hdec], ?_, hafter⟩
        intro g hg hgname
        rcases List.mem_cons.mp hg with rfl | hg
        · exact absurd hgname hname
        · exact hbefore g hg hgname

theorem firstBestAux_none_spec (name : String) :
    ∀ (l : List String) (full : String),
      firstBestAux name none l = some full →
      String.mk (lastSegChars full.data) = name ∧
      ∃ l1 l2, l = l1 ++ full :: l2 ∧
        (∀ g ∈ l1, String.mk (lastSegChars g.data) = name → score g name < score full name) ∧
        (∀ g ∈ l2, String.mk (lastSegChars g.data) = name → score g name ≤ score full name)
  | [], full => by
    intro h
    simp [firstBestAux] at h
  | full0 :: rest, full => by
    intro h
    simp only [firstBestAux] at h
    by_cases hname : String.mk (lastSegChars full0.data) = name
    · rw [if_pos hname] at h
      rcases firstBestAux_some_spec name rest full0 full h with ⟨rfl, hrest⟩ | hB
      · exact ⟨hname, [], rest, rfl, by simp, hrest⟩
      · obtain ⟨hmatch, hlt, l1, l2, hdec, hbefore, hafter⟩ := hB
        refine ⟨hmatch, full0 :: l1, l2, by simp [hdec], ?_, hafter⟩
        intro g hg hgname
        rcases List.mem_cons.mp hg with rfl | hg
        · exact hlt
        · exact hbefore g hg hgname
    · rw [if_neg hname] at h
      obtain ⟨hmatch, l1, l2, hdec, hbefore, hafter⟩ := firstBestAux_none_spec name rest full h
      refine ⟨hmatch, full0 :: l1, l2, by simp [hdec], ?_, hafter⟩
      intro g hg hgname
      rcases List.mem_cons.mp hg with rfl | hg
      · exact absurd hgname hname
      · exact hbefore g hg hgname

theorem publicExports_heur (st : Pass1State) (pkg : String)
    (hexp : (dictLookup st.exports_by_package pkg).getD [] = []) :
    publicExportsForPackage st pkg =
      (heurCandidates st pkg).foldl (bestStep (heurPreferred st pkg)) [] := by
  simp only [publicExportsForPackage, hexp]
  simp

/-- C7: for a package with no explicit export mapping, heuristic
inference considers exactly the known definitions whose full dotted path
is prefixed by the package path, falling back to the top-level root
segment when none exist (first conjunct); restricts candidates to names
present in the package's recorded __all__ when one is present (second
conjunct, the keep predicate of the filtered pool); and for each
candidate name keeps the definition whose containing module's trailing
name-component best matches the name — the kept definition is maximal in
score among same-named filtered candidates and strictly beats every
earlier one, so ties go to the earlier definition in processing order
(third conjunct) — and some definition is kept for every name that has a
filtered candidate (fourth conjunct). -/
theorem C7_heuristic_inference (st : Pass1State) (pkg : String)
    (hexp : (dictLookup st.exports_by_package pkg).getD [] = []) :
    (heurCandidates st pkg =
        (dictKeys st.defs_by_full).filter (fun full => chStartsWith full (pkg ++ ".")) ∨
      ((dictKeys st.defs_by_full).filter (fun full => chStartsWith full (pkg ++ ".")) = [] ∧
        heurCandidates st pkg = (dictKeys st.defs_by_full).filter
          (fun full => chStartsWith full (String.mk (topSegChars pkg.data) ++ ".")))) ∧
    (∀ full, heurKeep (heurPreferred st pkg) full = true ↔
      (heurPreferred st pkg = [] ∨
        String.mk (lastSegChars full.data) ∈ heurPreferred st pkg)) ∧
    (∀ name full, dictLookup (publicExportsForPackage st pkg) name = some full →
      String.mk (lastSegChars full.data) = name ∧
      ∃ l1 l2, heurFiltered st pkg = l1 ++ full :: l2 ∧
        (∀ g ∈ l1, String.mk (lastSegChars g.data) = name → score g name < score full name) ∧
        (∀ g ∈ l2, String.mk (lastSegChars g.data) = name → score g name ≤ score full name)) ∧
    (∀ name, (∃ g ∈ heurFiltered st pkg, String.mk (lastSegChars g.data) = name) →
      (dictLookup (publicExportsForPackage st pkg) name).isSome) := by
  refine ⟨?_, ?_, ?_, ?_⟩
  · unfold heurCandidates
    by_cases hempty : (dictKeys st.defs_by_full).filter
        (fun full => chStartsWith full (pkg ++ ".")) = []
    · rw [if_pos hempty]
      exact Or.inr ⟨hempty, rfl⟩
    · rw [if_neg hempty]
      exact Or.inl rfl
  · intro full
    unfold heurKeep
    by_cases hc : heurPreferred st pkg ≠ [] ∧
        ¬ (heurPreferred st pkg).contains (String.mk (lastSegChars full.data))
    · rw [if_pos hc]
      constructor
      · intro h
        exact absurd h (by simp)
      · intro h
        rcases h with h | h
        · exact absurd h hc.1
        · exact absurd (List.elem_eq_true_of_mem h) hc.2
    · rw [if_neg hc]
      constructor
      · intro _
        by_cases hel : heurPreferred st pkg = []
        · exact Or.inl hel
        · refine Or.inr ?_
          rcases not_and_or.mp hc with h | h
          · exact absurd hel (by simpa using h)
          · exact List.mem_of_elem_eq_true (by simpa using h)
      · intro _
        rfl
  · intro name full h
    rw [publicExports_heur st pkg hexp, heurFold_lookup] at h
    have hnone : dictLookup ([] : List (String × String)) name = none := rfl
    rw [hnone] at h
    exact firstBestAux_none_spec name (heurFiltered st pkg) full h
  · intro name hname
    rw [publicExports_heur st pkg hexp, heurFold_lookup]
    have hnone : dictLookup ([] : List (String × String)) name = none := rfl
    rw [hnone]
    exact firstBestAux_isSome name (heurFiltered st pkg) none hname

/-- C7 witness: in treeHeuristic the package p has no explicit exports,
declares __all__ = [run], and three same-named candidates; the kept
definition p.run.run is the first score-maximal filtered candidate. -/
theorem C7_witness :
    ∃ l1 l2, heurFiltered (pass1 treeHeuristic) "p" = l1 ++ "p.run.run" :: l2 ∧
      (∀ g ∈ l1, String.mk (lastSegChars g.data) = "run" →
        score g "run" < score "p.run.run" "run") ∧
      (∀ g ∈ l2, String.mk (lastSegChars g.data) = "run" →
        score g "run" ≤ score "p.run.run" "run") :=
  ((C7_heuristic_inference (pass1 treeHeuristic) "p" (by decide)).2.2.1 "run" "p.run.run"
    (by decide)).2

/-! Completeness of pass-2 emission (claims C8 and C9). -/

theorem dict_mem_unique {α : Type} {d : List (String × α)} {k : String} {v1 v2 : α}
    (h1 : (k, v1) ∈ d) (h2 : (k, v2) ∈ d) (hnd : (dictKeys d).Nodup) : v1 = v2 := by
  have e1 := dictLookup_eq_some_of_mem h1 hnd
  have e2 := dictLookup_eq_some_of_mem h2 hnd
  rw [e1] at e2
  exact Option.some.inj e2

theorem exists_first_decomp {α β : Type} (f : α → β) [DecidableEq β] :
    ∀ (l : List α) (t : α), t ∈ l → (∀ u ∈ l, f u = f t → u = t) →
      ∃ l1 l2, l = l1 ++ t :: l2 ∧ ∀ u ∈ l1, f u ≠ f t
  | [], t, hmem, _ => by simp at hmem
  | h :: rest, t, hmem, huniq => by
    by_cases hf : f h = f t
    · have : h = t := huniq h (by simp) hf
      subst this
      exact ⟨[], rest, rfl, by simp⟩
    · have ht : t ∈ rest := by
        rcases List.mem_cons.mp hmem with rfl | hmem2
        · exact absurd rfl hf
        · exact hmem2
      obtain ⟨l1, l2, hdec, hne⟩ := exists_first_decomp f rest t ht
        (fun u hu hfu => huniq u (by simp [hu]) hfu)
      refine ⟨h :: l1, l2, by simp [hdec], ?_⟩
      intro u hu
      rcases List.mem_cons.mp hu with rfl | hu
      · exact hf
      · exact hne u hu

theorem emitNewList_mem_of_triple (defs : List (String × ToolRecord)) :
    ∀ (ts : List (String × String × String)) (seen : List String)
      (t : String × String × String) (src : ToolRecord),
      t ∈ ts → dictLookup defs t.2.2 = some src →
      (∃ r ∈ emitNewList defs ts seen, r.id = mkId t.1 t.2.1) ∨ mkId t.1 t.2.1 ∈ seen
  | [], seen, t, src, hmem, _ => by simp at hmem
  | t0 :: ts, seen, t, src, hmem, hlook => by
    cases hlook0 : dictLookup defs t0.2.2 with
    | none =>
      have hne : t ≠ t0 := by
        intro he
        rw [he] at hlook
        rw [hlook] at hlook0
        cases hlook0
      have ht : t ∈ ts := by
        rcases List.mem_cons.mp hmem with rfl | h
        · exact absurd rfl hne
        · exact h
      have := emitNewList_mem_of_triple defs ts seen t src ht hlook
      simpa only [emitNewList, hlook0] using this
    | some src0 =>
      by_cases hseen0 : mkId t0.1 t0.2.1 ∈ seen
      · have hred : emitNewList defs (t0 :: ts) seen = emitNewList defs ts seen := by
          simp only [emitNewList, hlook0]
          rw [if_pos hseen0]
        rw [hred]
        rcases List.mem_cons.mp hmem with rfl | ht
        · exact Or.inr hseen0
        · exact emitNewList_mem_of_triple defs ts seen t src ht hlook
      · have hred : emitNewList defs (t0 :: ts) seen =
            mkEmitRecord t0.1 t0.2.1 src0 ::
              emitNewList defs ts (seen ++ [mkId t0.1 t0.2.1]) := by
          simp only [emitNewList, hlook0]
          rw [if_neg hseen0]
        rw [hred]
        rcases List.mem_cons.mp hmem with rfl | ht
        · exact Or.inl ⟨mkEmitRecord t.1 t.2.1 src0, by simp, rfl⟩
        · rcases emitNewList_mem_of_triple defs ts (seen ++ [mkId t0.1 t0.2.1]) t src ht hlook with
            ⟨r, hr, hid⟩ | hin
          · exact Or.inl ⟨r, by simp [hr], hid⟩
          · rcases List.mem_append.mp hin with hin | hin
            · exact Or.inr hin
            · rcases List.mem_singleton.mp hin with he
              refine Or.inl ⟨mkEmitRecord t0.1 t0.2.1 src0, by simp, ?_⟩
              show mkId t0.1 t0.2.1 = mkId t.1 t.2.1
              rw [he]

theorem emitNewList_first_occurrence (defs : List (String × ToolRecord)) :
    ∀ (ts1 : List (String × String × String)) (t : String × String × String)
      (ts2 : List (String × String × String)) (seen : List String) (src : ToolRecord),
      mkId t.1 t.2.1 ∉ seen →
      (∀ u ∈ ts1, mkId u.1 u.2.1 ≠ mkId t.1 t.2.1) →
      dictLookup defs t.2.2 = some src →
      mkEmitRecord t.1 t.2.1 src ∈ emitNewList defs (ts1 ++ t :: ts2) seen
  | [], t, ts2, seen, src, hfresh, _, hlook => by
    rw [List.nil_append]
    have hred : emitNewList defs (t :: ts2) seen =
        mkEmitRecord t.1 t.2.1 src ::
          emitNewList defs ts2 (seen ++ [mkId t.1 t.2.1]) := by
      simp only [emitNewList, hlook]
      rw [if_neg hfresh]
    rw [hred]
    simp
  | t0 :: ts1, t, ts2, seen, src, hfresh, hne, hlook => by
    rw [List.cons_append]
    cases hlook0 : dictLookup defs t0.2.2 with
    | none =>
      have hred : emitNewList defs (t0 :: (ts1 ++ t :: ts2)) seen =
          emitNewList defs (ts1 ++ t :: ts2) seen := by
        simp only [emitNewList, hlook0]
      rw [hred]
      exact emitNewList_first_occurrence defs ts1 t ts2 seen src hfresh
        (fun u hu => hne u (by simp [hu])) hlook
    | some src0 =>
      by_cases hseen0 : mkId t0.1 t0.2.1 ∈ seen
      · have hred : emitNewList defs (t0 :: (ts1 ++ t :: ts2)) seen =
            emitNewList defs (ts1 ++ t :: ts2) seen := by
          simp only [emitNewList, hlook0]
          rw [if_pos hseen0]
        rw [hred]
        exact emitNewList_first_occurrence defs ts1 t ts2 seen src hfresh
          (fun u hu => hne u (by simp [hu])) hlook
      · have hred : emitNewList defs (t0 :: (ts1 ++ t :: ts2)) seen =
            mkEmitRecord t0.1 t0.2.1 src0 ::
              emitNewList defs (ts1 ++ t :: ts2) (seen ++ [mkId t0.1 t0.2.1]) := by
          simp only [emitNewList, hlook0]
          rw [if_neg hseen0]
        rw [hred]
        have hfresh2 : mkId t.1 t.2.1 ∉ seen ++ [mkId t0.1 t0.2.1] := by
          intro hin
          rcases List.mem_append.mp hin with hin | hin
          · exact hfresh hin
          · rcases List.mem_singleton.mp hin with he
            exact hne t0 (by simp) he.symm
        exact List.mem_cons_of_mem _
          (emitNewList_first_occurrence defs ts1 t ts2 (seen ++ [mkId t0.1 t0.2.1]) src hfresh2
            (fun u hu => hne u (by simp [hu])) hlook)

theorem emitNewList_shape (defs : List (String × ToolRecord)) :
    ∀ (ts : List (String × String × String)) (seen : List String) (r : ToolRecord),
      r ∈ emitNewList defs ts seen →
      ∃ t ∈ ts, ∃ src, r = mkEmitRecord t.1 t.2.1 src
  | [], seen, r, hmem => by simp [emitNewList] at hmem
  | t0 :: ts, seen, r, hmem => by
    cases hlook0 : dictLookup defs t0.2.2 with
    | none =>
      rw [show emitNewList defs (t0 :: ts) seen = emitNewList defs ts seen by
        simp only [emitNewList, hlook0]] at hmem
      obtain ⟨t, ht, src, hr⟩ := emitNewList_shape defs ts seen r hmem
      exact ⟨t, by simp [ht], src, hr⟩
    | some src0 =>
      by_cases hseen0 : mkId t0.1 t0.2.1 ∈ seen
      · rw [show emitNewList defs (t0 :: ts) seen = emitNewList defs ts seen by
          simp only [emitNewList, hlook0]; rw [if_pos hseen0]] at hmem
        obtain ⟨t, ht, src, hr⟩ := emitNewList_shape defs ts seen r hmem
        exact ⟨t, by simp [ht], src, hr⟩
      · rw [show emitNewList defs (t0 :: ts) seen =
            mkEmitRecord t0.1 t0.2.1 src0 ::
              emitNewList defs ts (seen ++ [mkId t0.1 t0.2.1]) by
          simp only [emitNewList, hlook0]; rw [if_neg hseen0]] at hmem
        rcases List.mem_cons.mp hmem with rfl | hmem
        · exact ⟨t0, by simp, src0, rfl⟩
        · obtain ⟨t, ht, src, hr⟩ := emitNewList_shape defs ts _ r hmem
          exact ⟨t, by simp [ht], src, hr⟩

theorem publicExports_explicit (st : Pass1State) (pkg : String)
    (m : List (String × String)) (hm : dictLookup st.exports_by_package pkg = some m)
    (hne : m ≠ []) : publicExportsForPackage st pkg = m := by
  simp only [publicExportsForPackage, hm, Option.getD_some]
  rw [if_pos hne]

theorem mem_directTriples {st : Pass1State} {order : List String} {pkg en origin : String}
    (hpkg : pkg ∈ order) (hmem : (en, origin) ∈ publicExportsForPackage st pkg) :
    (pkg, en, origin) ∈ directTriples st order := by
  unfold directTriples
  refine List.mem_flatMap.mpr ⟨pkg, hpkg, ?_⟩
  unfold pkgTriples
  exact List.mem_map.mpr ⟨(en, origin), hmem, rfl⟩

theorem triple_name_cf (st : Pass1State) (hmap : MapWF st) (order : List String) :
    ∀ t ∈ directTriples st order ++ aliasTriples st, ':' ∉ (t.2.1 : String).data := by
  intro t ht
  rcases List.mem_append.mp ht with ht | ht
  · obtain ⟨pkg, _, ht2⟩ := List.mem_flatMap.mp ht
    obtain ⟨p, hp, rfl⟩ := List.mem_map.mp ht2
    exact (hmap pkg).2 p hp
  · obtain ⟨pa, _, ht2⟩ := List.mem_flatMap.mp ht
    obtain ⟨ab, _, ht3⟩ := List.mem_flatMap.mp ht2
    obtain ⟨p, hp, rfl⟩ := List.mem_map.mp ht3
    exact (hmap (pa.1 ++ "." ++ ab.2)).2 p hp

/-- C8 (amended): when a package's accumulated export map binds
public_name to the origin pkg.sub.helper (the init file declares
`from .sub import helper as public_name` and no later declaration
overwrites it), the origin is a known public top-level definition of
sub, and no pass-1 definition record already claimed the id
<package>:public_name, the output contains a record with that id whose
module and name are the package and public name and whose signature,
doc_first_line, file and lineno equal those of the origin definition's
record — and that id does not duplicate the origin's own record id. -/
theorem C8_reexport_record (files : List PyFile) (pkg sub helper pub origin : String)
    (m : List (String × String)) (src : ToolRecord)
    (hwf : treeWF files = true)
    (hm : dictLookup (pass1 files).exports_by_package pkg = some m)
    (hbind : dictLookup m pub = some origin)
    (horigin : origin = pkg ++ "." ++ sub ++ "." ++ helper)
    (hdef : dictLookup (pass1 files).defs_by_full origin = some src)
    (hfresh : (pkg ++ ":" ++ pub) ∉ (pass1 files).seen_ids)
    (hhelper : identOk helper = true) :
    ∃ r ∈ (extractTools files).1,
      r.id = pkg ++ ":" ++ pub ∧ r.module = pkg ∧ r.name = pub ∧
      r.signature = src.signature ∧ r.doc_first_line = src.doc_first_line ∧
      r.file = src.file ∧ r.lineno = src.lineno ∧
      r.id ≠ (pkg ++ "." ++ sub) ++ ":" ++ helper := by
  have hinv := pass1_inv files
  have hcf := pass1_cf files hwf
  have hmap := mapWF (pass1 files) hinv hcf
  have hne : m ≠ [] := by
    intro h0
    rw [h0] at hbind
    simp [dictLookup] at hbind
  have hpub : publicExportsForPackage (pass1 files) pkg = m :=
    publicExports_explicit _ _ m hm hne
  have hmem_m : (pub, origin) ∈ m := dictLookup_mem hbind
  have hmem_map : (pub, origin) ∈ publicExportsForPackage (pass1 files) pkg := by
    rw [hpub]
    exact hmem_m
  have hpkg_order : pkg ∈ directPkgs (pass1 files) := by
    unfold directPkgs
    exact List.mem_dedup.mpr (List.mem_append.mpr (Or.inl (mem_keys_of_dictLookup hm)))
  have htmem : (pkg, pub, origin) ∈ directTriples (pass1 files) (directPkgs (pass1 files)) :=
    mem_directTriples hpkg_order hmem_map
  have hcfpub : ':' ∉ pub.data := (hmap pkg).2 (pub, origin) hmem_map
  have huniq : ∀ u ∈ directTriples (pass1 files) (directPkgs (pass1 files)),
      (fun (t : String × String × String) => mkId t.1 t.2.1) u =
        (fun (t : String × String × String) => mkId t.1 t.2.1) (pkg, pub, origin) →
      u = (pkg, pub, origin) := by
    intro u hu hid
    obtain ⟨pkg2, hpkg2, hu2⟩ := List.mem_flatMap.mp hu
    obtain ⟨p, hp, rfl⟩ := List.mem_map.mp hu2
    have hcf1 : ':' ∉ (p.1 : String).data := (hmap pkg2).2 p hp
    obtain ⟨hpkg_eq, hname_eq⟩ := mkId_inj hcf1 hcfpub hid
    subst hpkg_eq
    rw [hpub] at hp
    obtain ⟨p1, p2⟩ := p
    have hname_eq2 : p1 = pub := hname_eq
    subst hname_eq2
    have hp2 : p2 = origin :=
      dict_mem_unique hp hmem_m (hinv.exp_keys (pkg2, m) (dictLookup_mem hm))
    subst hp2
    rfl
  obtain ⟨l1, l2, hdec, hne1⟩ := exists_first_decomp
    (fun (t : String × String × String) => mkId t.1 t.2.1)
    (directTriples (pass1 files) (directPkgs (pass1 files))) (pkg, pub, origin) htmem huniq
  have hcomb : directTriples (pass1 files) (directPkgs (pass1 files)) ++
      aliasTriples (pass1 files) =
      l1 ++ (pkg, pub, origin) :: (l2 ++ aliasTriples (pass1 files)) := by
    rw [hdec]
    simp [List.append_assoc]
  have hrec := emitNewList_first_occurrence (pass1 files).defs_by_full l1 (pkg, pub, origin)
    (l2 ++ aliasTriples (pass1 files)) (pass1 files).seen_ids src hfresh
    (fun u hu => hne1 u hu) hdef
  refine ⟨mkEmitRecord pkg pub src, ?_, rfl, rfl, rfl, rfl, rfl, rfl, rfl, ?_⟩
  · show mkEmitRecord pkg pub src ∈ (extractWith files (directPkgs (pass1 files))).1
    rw [extractWith_eq]
    refine List.mem_append.mpr (Or.inr ?_)
    rw [hcomb]
    exact hrec
  · intro heq
    have hcfhelper : ':' ∉ helper.data := identOk_colon hhelper
    have hid2 : mkId pkg pub = mkId (pkg ++ "." ++ sub) helper := heq
    obtain ⟨hmod_eq, _⟩ := mkId_inj hcfpub hcfhelper hid2
    have hd := congrArg String.data hmod_eq
    rw [dotJoin_data] at hd
    have hlen := congrArg List.length hd
    simp at hlen

/-- C8 witness: the declaration in treeCleanExport is emitted with the
origin definition's fields. -/
theorem C8_witness :
    ∃ r ∈ (extractTools treeCleanExport).1,
      r.id = "p" ++ ":" ++ "pub" ∧ r.module = "p" ∧ r.name = "pub" ∧
      r.signature = srcHelperClean.signature ∧
      r.doc_first_line = srcHelperClean.doc_first_line ∧
      r.file = srcHelperClean.file ∧ r.lineno = srcHelperClean.lineno ∧
      r.id ≠ ("p" ++ "." ++ "sub") ++ ":" ++ "helper" :=
  C8_reexport_record treeCleanExport "p" "sub" "helper" "pub" "p.sub.helper"
    [("pub", "p.sub.helper")] srcHelperClean (by decide) (by decide) (by decide)
    (by decide) (by decide) (by decide) (by decide)

/-- C9 (amended): every export resolved for an aliased child package
whose origin is a known definition is re-published: the output contains a
record whose module is the synthetic namespace <package>.<alias> and
whose name is the export name (exports with unknown origins are silently
skipped, see C10). -/
theorem C9_alias_republish (files : List PyFile) (parent als sub en origin : String)
    (amap : List (String × String)) (src : ToolRecord)
    (hwf : treeWF files = true)
    (hal : dictLookup (pass1 files).aliases_by_package parent = some amap)
    (hmem : (als, sub) ∈ amap)
    (hexp : (en, origin) ∈ publicExportsForPackage (pass1 files) (parent ++ "." ++ sub))
    (hdef : dictLookup (pass1 files).defs_by_full origin = some src) :
    ∃ r ∈ (extractTools files).1, r.module = parent ++ "." ++ als ∧ r.name = en := by
  have hinv := pass1_inv files
  have hcf := pass1_cf files hwf
  have hmap := mapWF (pass1 files) hinv hcf
  have hen_cf : ':' ∉ en.data := (hmap (parent ++ "." ++ sub)).2 (en, origin) hexp
  have htrip : (parent ++ "." ++ als, en, origin) ∈ aliasTriples (pass1 files) := by
    unfold aliasTriples
    refine List.mem_flatMap.mpr ⟨(parent, amap), dictLookup_mem hal, ?_⟩
    refine List.mem_flatMap.mpr ⟨(als, sub), hmem, ?_⟩
    unfold pkgTriples
    exact List.mem_map.mpr ⟨(en, origin), hexp, rfl⟩
  have hcomb : (parent ++ "." ++ als, en, origin) ∈
      directTriples (pass1 files) (directPkgs (pass1 files)) ++ aliasTriples (pass1 files) :=
    List.mem_append.mpr (Or.inr htrip)
  rcases emitNewList_mem_of_triple (pass1 files).defs_by_full
      (directTriples (pass1 files) (directPkgs (pass1 files)) ++ aliasTriples (pass1 files))
      (pass1 files).seen_ids (parent ++ "." ++ als, en, origin) src hcomb hdef with
    ⟨r, hr, hid⟩ | hseen
  · obtain ⟨t2, ht2, src2, rfl⟩ := emitNewList_shape _ _ _ r hr
    have hcf_t : ':' ∉ (t2.2.1 : String).data :=
      triple_name_cf (pass1 files) hmap (directPkgs (pass1 files)) t2 ht2
    have hid2 : mkId t2.1 t2.2.1 = mkId (parent ++ "." ++ als) en := hid
    obtain ⟨hm_eq, hn_eq⟩ := mkId_inj hcf_t hen_cf hid2
    refine ⟨mkEmitRecord t2.1 t2.2.1 src2, ?_, hm_eq, hn_eq⟩
    show _ ∈ (extractWith files (directPkgs (pass1 files))).1
    rw [extractWith_eq]
    exact List.mem_append.mpr (Or.inr hr)
  · rw [hinv.seen_eq] at hseen
    obtain ⟨r, hr, hid⟩ := List.mem_map.mp hseen
    have hrid := hinv.rec_id r hr
    have hrcf := hcf.rec_name r hr
    have hid2 : mkId r.module r.name = mkId (parent ++ "." ++ als) en := by
      show r.module ++ ":" ++ r.name = _
      rw [← hrid]
      exact hid
    obtain ⟨hm_eq, hn_eq⟩ := mkId_inj hrcf hen_cf hid2
    refine ⟨r, ?_, hm_eq, hn_eq⟩
    show r ∈ (extractWith files (directPkgs (pass1 files))).1
    rw [extractWith_eq]
    exact List.mem_append.mpr (Or.inl hr)

/-- C9 witness: the aliased subpackage export of treeAliasKnownOrigin is
re-published under the synthetic module p.s. -/
theorem C9_witness :
    ∃ r ∈ (extractTools treeAliasKnownOrigin).1,
      r.module = "p" ++ "." ++ "s" ∧ r.name = "f" :=
  C9_alias_republish treeAliasKnownOrigin "p" "s" "sub" "f" "p.sub.mod.f"
    [("s", "sub")] srcModF (by decide) (by decide) (by decide) (by decide) (by decide)

/-! C2: determinism of the sorted output under the direct-package set
iteration order. The proof decomposes the pass-2 emissions into the
per-package contributions, shows those are independent of the order, and
shows the sort is invariant under the resulting permutation. -/

theorem emitNewList_append (defs : List (String × ToolRecord)) :
    ∀ (ts1 ts2 : List (String × String × String)) (seen : List String),
      emitNewList defs (ts1 ++ ts2) seen =
        emitNewList defs ts1 seen ++
          emitNewList defs ts2
            (seen ++ (emitNewList defs ts1 seen).map (fun r => r.id))
  | [], ts2, seen => by simp [emitNewList]
  | t :: ts1, ts2, seen => by
    cases hlook : dictLookup defs t.2.2 with
    | none =>
      have h1 : emitNewList defs ((t :: ts1) ++ ts2) seen =
          emitNewList defs (ts1 ++ ts2) seen := by
        simp only [List.cons_append, emitNewList, hlook]
        rfl
      have h2 : emitNewList defs (t :: ts1) seen = emitNewList defs ts1 seen := by
        simp only [emitNewList, hlook]
      rw [h1, h2, emitNewList_append defs ts1 ts2 seen]
    | some src =>
      by_cases hseen : mkId t.1 t.2.1 ∈ seen
      · have h1 : emitNewList defs ((t :: ts1) ++ ts2) seen =
            emitNewList defs (ts1 ++ ts2) seen := by
          simp only [List.cons_append, emitNewList, hlook]
          rw [if_pos hseen]
          rfl
        have h2 : emitNewList defs (t :: ts1) seen = emitNewList defs ts1 seen := by
          simp only [emitNewList, hlook]
          rw [if_pos hseen]
        rw [h1, h2, emitNewList_append defs ts1 ts2 seen]
      · have h1 : emitNewList defs ((t :: ts1) ++ ts2) seen =
            mkEmitRecord t.1 t.2.1 src ::
              emitNewList defs (ts1 ++ ts2) (seen ++ [mkId t.1 t.2.1]) := by
          simp only [List.cons_append, emitNewList, hlook]
          rw [if_neg hseen]
          rfl
        have h2 : emitNewList defs (t :: ts1) seen =
            mkEmitRecord t.1 t.2.1 src ::
              emitNewList defs ts1 (seen ++ [mkId t.1 t.2.1]) := by
          simp only [emitNewList, hlook]
          rw [if_neg hseen]
        rw [h1, h2, emitNewList_append defs ts1 ts2 (seen ++ [mkId t.1 t.2.1])]
        have hid : (mkEmitRecord t.1 t.2.1 src).id = mkId t.1 t.2.1 := rfl
        simp [hid, List.append_assoc]

theorem emitNewList_congr_seen (defs : List (String × ToolRecord)) :
    ∀ (ts : List (String × String × String)) (s1 s2 : List String),
      (∀ i, i ∈ s1 ↔ i ∈ s2) →
      emitNewList defs ts s1 = emitNewList defs ts s2
  | [], _, _, _ => rfl
  | t :: ts, s1, s2, h => by
    cases hlook : dictLookup defs t.2.2 with
    | none =>
      simp only [emitNewList, hlook]
      exact emitNewList_congr_seen defs ts s1 s2 h
    | some src =>
      by_cases hseen : mkId t.1 t.2.1 ∈ s1
      · have hseen2 : mkId t.1 t.2.1 ∈ s2 := (h _).mp hseen
        simp only [emitNewList, hlook]
        rw [if_pos hseen, if_pos hseen2]
        exact emitNewList_congr_seen defs ts s1 s2 h
      · have hseen2 : mkId t.1 t.2.1 ∉ s2 := fun hh => hseen ((h _).mpr hh)
        simp only [emitNewList, hlook]
        rw [if_neg hseen, if_neg hseen2]
        have h2 : ∀ i, i ∈ s1 ++ [mkId t.1 t.2.1] ↔ i ∈ s2 ++ [mkId t.1 t.2.1] := by
          intro i
          rw [List.mem_append, List.mem_append, h i]
        rw [emitNewList_congr_seen defs ts (s1 ++ [mkId t.1 t.2.1])
          (s2 ++ [mkId t.1 t.2.1]) h2]

theorem pkgNewList_shape (defs : List (String × ToolRecord)) (S0 : List String)
    (pkg : String) :
    ∀ (m : List (String × String)) (r : ToolRecord),
      r ∈ pkgNewList defs S0 pkg m →
      ∃ p ∈ m, ∃ src, r = mkEmitRecord pkg p.1 src
  | [], r, hmem => by simp [pkgNewList] at hmem
  | p :: m, r, hmem => by
    cases hlook : dictLookup defs p.2 with
    | none =>
      rw [show pkgNewList defs S0 pkg (p :: m) = pkgNewList defs S0 pkg m by
        simp only [pkgNewList, hlook]] at hmem
      obtain ⟨p1, hp1, src, hr⟩ := pkgNewList_shape defs S0 pkg m r hmem
      exact ⟨p1, by simp [hp1], src, hr⟩
    | some src =>
      by_cases h0 : mkId pkg p.1 ∈ S0
      · rw [show pkgNewList defs S0 pkg (p :: m) = pkgNewList defs S0 pkg m by
          simp only [pkgNewList, hlook]; rw [if_pos h0]] at hmem
        obtain ⟨p1, hp1, src1, hr⟩ := pkgNewList_shape defs S0 pkg m r hmem
        exact ⟨p1, by simp [hp1], src1, hr⟩
      · rw [show pkgNewList defs S0 pkg (p :: m) =
            mkEmitRecord pkg p.1 src :: pkgNewList defs S0 pkg m by
          simp only [pkgNewList, hlook]; rw [if_neg h0]] at hmem
        rcases List.mem_cons.mp hmem with hr | hmem2
        · exact ⟨p, by simp, src, hr⟩
        · obtain ⟨p1, hp1, src1, hr⟩ := pkgNewList_shape defs S0 pkg m r hmem2
          exact ⟨p1, by simp [hp1], src1, hr⟩

theorem emitNewList_pkgTriples (defs : List (String × ToolRecord))
    (S0 : List String) (pkg : String) :
    ∀ (m : List (String × String)) (seen : List String),
      (m.map (fun p => p.1)).Nodup →
      (∀ p ∈ m, (mkId pkg p.1 ∈ seen ↔ mkId pkg p.1 ∈ S0)) →
      emitNewList defs (pkgTriples pkg m) seen = pkgNewList defs S0 pkg m
  | [], seen, _, _ => rfl
  | p :: m, seen, hnd, hiff => by
    have hnd2 : (m.map (fun p => p.1)).Nodup := (List.nodup_cons.mp hnd).2
    have hpt : pkgTriples pkg (p :: m) = (pkg, p.1, p.2) :: pkgTriples pkg m := rfl
    rw [hpt]
    cases hlook : dictLookup defs p.2 with
    | none =>
      have h1 : emitNewList defs ((pkg, p.1, p.2) :: pkgTriples pkg m) seen =
          emitNewList defs (pkgTriples pkg m) seen := by
        simp only [emitNewList, hlook]
      have h2 : pkgNewList defs S0 pkg (p :: m) = pkgNewList defs S0 pkg m := by
        simp only [pkgNewList, hlook]
      rw [h1, h2]
      exact emitNewList_pkgTriples defs S0 pkg m seen hnd2
        (fun p1 hp1 => hiff p1 (by simp [hp1]))
    | some src =>
      by_cases h0 : mkId pkg p.1 ∈ S0
      · have hs : mkId pkg p.1 ∈ seen := (hiff p (by simp)).mpr h0
        have h1 : emitNewList defs ((pkg, p.1, p.2) :: pkgTriples pkg m) seen =
            emitNewList defs (pkgTriples pkg m) seen := by
          simp only [emitNewList, hlook]
          rw [if_pos hs]
        have h2 : pkgNewList defs S0 pkg (p :: m) = pkgNewList defs S0 pkg m := by
          simp only [pkgNewList, hlook]; rw [if_pos h0]
        rw [h1, h2]
        exact emitNewList_pkgTriples defs S0 pkg m seen hnd2
          (fun p1 hp1 => hiff p1 (by simp [hp1]))
      · have hs : mkId pkg p.1 ∉ seen := fun hh => h0 ((hiff p (by simp)).mp hh)
        have h1 : emitNewList defs ((pkg, p.1, p.2) :: pkgTriples pkg m) seen =
            mkEmitRecord pkg p.1 src ::
              emitNewList defs (pkgTriples pkg m) (seen ++ [mkId pkg p.1]) := by
          simp only [emitNewList, hlook]
          rw [if_neg hs]
        have h2 : pkgNewList defs S0 pkg (p :: m) =
            mkEmitRecord pkg p.1 src :: pkgNewList defs S0 pkg m := by
          simp only [pkgNewList, hlook]; rw [if_neg h0]
        rw [h1, h2]
        have hiff2 : ∀ p1 ∈ m, (mkId pkg p1.1 ∈ seen ++ [mkId pkg p.1] ↔
            mkId pkg p1.1 ∈ S0) := by
          intro p1 hp1
          have hne : p1.1 ≠ p.1 := by
            intro he
            have hm : p1.1 ∈ m.map (fun p => p.1) := List.mem_map.mpr ⟨p1, hp1, rfl⟩
            rw [he] at hm
            exact (List.nodup_cons.mp hnd).1 hm
          have hidne : mkId pkg p1.1 ≠ mkId pkg p.1 := fun hh => hne (mkId_inj_right hh)
          rw [List.mem_append]
          constructor
          · rintro (hh | hh)
            · exact (hiff p1 (by simp [hp1])).mp hh
            · exact absurd (List.mem_singleton.mp hh) hidne
          · intro hh
            exact Or.inl ((hiff p1 (by simp [hp1])).mpr hh)
        rw [emitNewList_pkgTriples defs S0 pkg m (seen ++ [mkId pkg p.1]) hnd2 hiff2]

theorem emitNewList_direct (st : Pass1State) (hmap : MapWF st) (S0 : List String) :
    ∀ (o : List String) (seen : List String), o.Nodup →
      (∀ pkg ∈ o, ∀ p ∈ publicExportsForPackage st pkg,
        (mkId pkg p.1 ∈ seen ↔ mkId pkg p.1 ∈ S0)) →
      emitNewList st.defs_by_full (directTriples st o) seen =
        o.flatMap (fun pkg =>
          pkgNewList st.defs_by_full S0 pkg (publicExportsForPackage st pkg))
  | [], seen, _, _ => rfl
  | pkg :: o, seen, hnd, hiff => by
    have hdt : directTriples st (pkg :: o) =
        pkgTriples pkg (publicExportsForPackage st pkg) ++ directTriples st o := by
      unfold directTriples
      rw [List.flatMap_cons]
    rw [hdt, emitNewList_append]
    have hN : emitNewList st.defs_by_full
        (pkgTriples pkg (publicExportsForPackage st pkg)) seen =
        pkgNewList st.defs_by_full S0 pkg (publicExportsForPackage st pkg) :=
      emitNewList_pkgTriples st.defs_by_full S0 pkg _ seen (hmap pkg).1
        (fun p hp => hiff pkg (by simp) p hp)
    rw [hN]
    have hiff2 : ∀ pkg1 ∈ o, ∀ p1 ∈ publicExportsForPackage st pkg1,
        (mkId pkg1 p1.1 ∈ seen ++
            (pkgNewList st.defs_by_full S0 pkg
              (publicExportsForPackage st pkg)).map (fun r => r.id) ↔
          mkId pkg1 p1.1 ∈ S0) := by
      intro pkg1 hpkg1 p1 hp1
      have hnotin : mkId pkg1 p1.1 ∉
          (pkgNewList st.defs_by_full S0 pkg
            (publicExportsForPackage st pkg)).map (fun r => r.id) := by
        intro hin
        obtain ⟨r, hr, hid⟩ := List.mem_map.mp hin
        obtain ⟨p, hp, src, hreq⟩ := pkgNewList_shape st.defs_by_full S0 pkg _ r hr
        have hid2 : mkId pkg p.1 = mkId pkg1 p1.1 := by
          rw [← hid, hreq]
          rfl
        have hcfp : ':' ∉ (p.1 : String).data := (hmap pkg).2 p hp
        have hcfp1 : ':' ∉ (p1.1 : String).data := (hmap pkg1).2 p1 hp1
        have heq := (mkId_inj hcfp hcfp1 hid2).1
        rw [← heq] at hpkg1
        exact (List.nodup_cons.mp hnd).1 hpkg1
      rw [List.mem_append]
      constructor
      · rintro (hh | hh)
        · exact (hiff pkg1 (by simp [hpkg1]) p1 hp1).mp hh
        · exact absurd hh hnotin
      · intro hh
        exact Or.inl ((hiff pkg1 (by simp [hpkg1]) p1 hp1).mpr hh)
    rw [emitNewList_direct st hmap S0 o _ (List.nodup_cons.mp hnd).2 hiff2,
      List.flatMap_cons]

theorem pkgNewList_names_sublist (defs : List (String × ToolRecord))
    (S0 : List String) (pkg : String) :
    ∀ (m : List (String × String)),
      ((pkgNewList defs S0 pkg m).map (fun r => r.name)).Sublist
        (m.map (fun p => p.1))
  | [] => List.Sublist.refl []
  | p :: m => by
    cases hlook : dictLookup defs p.2 with
    | none =>
      rw [show pkgNewList defs S0 pkg (p :: m) = pkgNewList defs S0 pkg m by
        simp only [pkgNewList, hlook]]
      exact (pkgNewList_names_sublist defs S0 pkg m).cons _
    | some src =>
      by_cases h0 : mkId pkg p.1 ∈ S0
      · rw [show pkgNewList defs S0 pkg (p :: m) = pkgNewList defs S0 pkg m by
          simp only [pkgNewList, hlook]; rw [if_pos h0]]
        exact (pkgNewList_names_sublist defs S0 pkg m).cons _
      · rw [show pkgNewList defs S0 pkg (p :: m) =
            mkEmitRecord pkg p.1 src :: pkgNewList defs S0 pkg m by
          simp only [pkgNewList, hlook]; rw [if_neg h0]]
        rw [List.map_cons, List.map_cons]
        exact (pkgNewList_names_sublist defs S0 pkg m).cons₂ _

theorem pkgNewList_keys (defs : List (String × ToolRecord)) (S0 : List String)
    (pkg : String) (m : List (String × String)) :
    (pkgNewList defs S0 pkg m).map recordKey =
      ((pkgNewList defs S0 pkg m).map (fun r => r.name)).map
        (fun n => (pkg, n)) := by
  rw [List.map_map]
  apply List.map_congr_left
  intro r hr
  obtain ⟨p, hp, src, hreq⟩ := pkgNewList_shape defs S0 pkg m r hr
  rw [hreq]
  rfl

theorem flat_keys_nodup (st : Pass1State) (hmap : MapWF st) (S0 : List String) :
    ∀ (o : List String), o.Nodup →
      ((o.flatMap (fun pkg =>
          pkgNewList st.defs_by_full S0 pkg (publicExportsForPackage st pkg))).map
        recordKey).Nodup
  | [], _ => List.nodup_nil
  | pkg :: o, hnd => by
    rw [List.flatMap_cons, List.map_append]
    refine List.Nodup.append ?_ (flat_keys_nodup st hmap S0 o (List.nodup_cons.mp hnd).2) ?_
    · rw [pkgNewList_keys]
      have hnames : ((pkgNewList st.defs_by_full S0 pkg
          (publicExportsForPackage st pkg)).map (fun r => r.name)).Nodup :=
        (pkgNewList_names_sublist st.defs_by_full S0 pkg _).nodup (hmap pkg).1
      exact hnames.map (fun a b h => by
        have := Prod.mk.injEq pkg a pkg b ▸ h
        exact ((Prod.mk.injEq pkg a pkg b).mp h).2)
    · intro k hk1 hk2
      rw [pkgNewList_keys] at hk1
      obtain ⟨n, _, hkeq⟩ := List.mem_map.mp hk1
      obtain ⟨r, hr, hkeq2⟩ := List.mem_map.mp hk2
      obtain ⟨pkg1, hpkg1, hr2⟩ := List.mem_flatMap.mp hr
      obtain ⟨p, hp, src, hreq⟩ := pkgNewList_shape st.defs_by_full S0 pkg1 _ r hr2
      have h1 : k.1 = pkg := by rw [← hkeq]
      have h2 : k.1 = pkg1 := by
        rw [← hkeq2, hreq]
        rfl
      rw [h1] at h2
      rw [← h2] at hpkg1
      exact (List.nodup_cons.mp hnd).1 hpkg1

theorem filter_key_short :
    ∀ (l : List ToolRecord), (l.map recordKey).Nodup → ∀ (k : String × String),
      (l.filter (fun r => recordKey r = k)).length ≤ 1
  | [], _, k => by simp
  | r :: l, hnd, k => by
    by_cases h : recordKey r = k
    · have hrest : l.filter (fun r => recordKey r = k) = [] := by
        rw [List.filter_eq_nil_iff]
        intro r1 hr1
        simp only [decide_eq_true_eq]
        intro he
        have hm : recordKey r1 ∈ l.map recordKey := List.mem_map.mpr ⟨r1, hr1, rfl⟩
        rw [he, ← h] at hm
        exact (List.nodup_cons.mp hnd).1 hm
      simp [List.filter_cons, h, hrest]
    · have hstep : (r :: l).filter (fun r => recordKey r = k) =
          l.filter (fun r => recordKey r = k) := by
        simp [List.filter_cons, h]
      rw [hstep]
      exact filter_key_short l (List.nodup_cons.mp hnd).2 k

theorem perm_short_eq {l1 l2 : List ToolRecord} (hp : l1.Perm l2)
    (hlen : l1.length ≤ 1) : l1 = l2 := by
  cases l1 with
  | nil => exact ((List.Perm.eq_nil hp.symm).symm)
  | cons a t =>
    cases t with
    | nil => exact (List.perm_singleton.mp hp.symm).symm
    | cons b t2 => simp at hlen

theorem pySorted_congr {l1 l2 : List ToolRecord} (hp : l1.Perm l2)
    (hcls : ∀ k, l1.filter (fun r => recordKey r = k) =
      l2.filter (fun r => recordKey r = k)) :
    pySortedRecords l1 = pySortedRecords l2 := by
  unfold pySortedRecords
  have hkperm : ((l1.map recordKey).dedup).Perm ((l2.map recordKey).dedup) :=
    (hp.map recordKey).dedup
  have hkeys : ((l1.map recordKey).dedup).insertionSort keyLe =
      ((l2.map recordKey).dedup).insertionSort keyLe := by
    exact List.eq_of_perm_of_sorted
      (((List.perm_insertionSort keyLe _).trans hkperm).trans
        (List.perm_insertionSort keyLe _).symm)
      (List.sorted_insertionSort keyLe _)
      (List.sorted_insertionSort keyLe _)
  rw [hkeys]
  have hfun : (fun k => l1.filter (fun r => recordKey r = k)) =
      (fun k => l2.filter (fun r => recordKey r = k)) := funext hcls
  rw [hfun]

theorem pySorted_flat_congr (P D1 D2 : List ToolRecord)
    (defs : List (String × ToolRecord)) (ats : List (String × String × String))
    (S0 : List String) (hperm : D1.Perm D2) (hnd : (D1.map recordKey).Nodup) :
    pySortedRecords
        (P ++ (D1 ++ emitNewList defs ats (S0 ++ D1.map (fun r => r.id)))) =
      pySortedRecords
        (P ++ (D2 ++ emitNewList defs ats (S0 ++ D2.map (fun r => r.id)))) := by
  have hA : emitNewList defs ats (S0 ++ D1.map (fun r => r.id)) =
      emitNewList defs ats (S0 ++ D2.map (fun r => r.id)) :=
    emitNewList_congr_seen defs ats _ _ (fun i => by
      rw [List.mem_append, List.mem_append,
        (hperm.map (fun r => r.id)).mem_iff])
  rw [hA]
  apply pySorted_congr
  · exact List.Perm.append_left _ (List.Perm.append_right _ hperm)
  · intro k
    have hmid : D1.filter (fun r => recordKey r = k) =
        D2.filter (fun r => recordKey r = k) :=
      perm_short_eq (hperm.filter _) (filter_key_short D1 hnd k)
    simp only [List.filter_append, hmid]

/-- C2: re-running the extraction on the unchanged tree is deterministic.
The only run-to-run variation in the model is the iteration order of the
direct-package set (Python's set(exports_by_package) | set(all_by_package),
subject to hash randomization): for any two enumerations of that set, the
sorted record list and both counters are identical. -/
theorem C2_determinism (files : List PyFile) (o1 o2 : List String)
    (hwf : treeWF files = true) (hnd : o1.Nodup) (hperm : o1.Perm o2) :
    toolsSorted (extractWith files o1).1 = toolsSorted (extractWith files o2).1 ∧
      (extractWith files o1).2 = (extractWith files o2).2 := by
  have hinv := pass1_inv files
  have hcf := pass1_cf files hwf
  have hmap := mapWF (pass1 files) hinv hcf
  have hnd2 : o2.Nodup := hperm.nodup hnd
  have hdecomp : ∀ (o : List String), o.Nodup →
      (extractWith files o).1 = (pass1 files).results ++
        (o.flatMap (fun pkg => pkgNewList (pass1 files).defs_by_full
            (pass1 files).seen_ids pkg (publicExportsForPackage (pass1 files) pkg)) ++
          emitNewList (pass1 files).defs_by_full (aliasTriples (pass1 files))
            ((pass1 files).seen_ids ++
              (o.flatMap (fun pkg => pkgNewList (pass1 files).defs_by_full
                (pass1 files).seen_ids pkg
                (publicExportsForPackage (pass1 files) pkg))).map
                (fun r => r.id))) := by
    intro o hndo
    rw [extractWith_eq, emitNewList_append,
      emitNewList_direct (pass1 files) hmap (pass1 files).seen_ids o
        (pass1 files).seen_ids hndo (fun _ _ _ _ => Iff.rfl)]
  constructor
  · unfold toolsSorted
    rw [hdecomp o1 hnd, hdecomp o2 hnd2]
    exact pySorted_flat_congr (pass1 files).results _ _
      (pass1 files).defs_by_full (aliasTriples (pass1 files))
      (pass1 files).seen_ids (hperm.flatMap_right _)
      (flat_keys_nodup (pass1 files) hmap (pass1 files).seen_ids o1 hnd)
  · rw [extractWith_eq, extractWith_eq]

/-- C2 witness: on the two-package tree, enumerating the direct-package
set as p,q or as q,p yields the same sorted records and counters. -/
theorem C2_witness :
    treeWF treeTwoPkgs = true ∧
      (toolsSorted (extractWith treeTwoPkgs ["p", "q"]).1 =
          toolsSorted (extractWith treeTwoPkgs ["q", "p"]).1 ∧
        (extractWith treeTwoPkgs ["p", "q"]).2 =
          (extractWith treeTwoPkgs ["q", "p"]).2) :=
  ⟨by decide, C2_determinism treeTwoPkgs ["p", "q"] ["q", "p"]
    (by decide) (by decide) (by decide)⟩

end ToolExtractor
